import Mathlib

/-!
Verification development for the nftgen-script repository: a batch NFT
image-generation and Google-Drive-upload pipeline.  Pure fragments of the
TypeScript source are embedded as Lean definitions; effectful fragments
(file system, HTTP) are embedded as explicit state-passing functions over
oracles for the remote/file-system responses.
-/

namespace NftGen

/-! ### Decimal rendering (JS template literals `${n}` / Lean `Nat.repr`)

The batch keys are strings built with JS template literals, whose number
rendering is decimal.  `Nat.repr` is the Lean counterpart.  We prove it
injective, which the partition claims about batch keys need. -/

/-- Decimal digit characters of `n`, most significant first.  This is the
reference form of `Nat.toDigits 10`; we prove them equal below. -/
def natChars (n : Nat) : List Char :=
  if n < 10 then [Nat.digitChar n]
  else natChars (n / 10) ++ [Nat.digitChar (n % 10)]
termination_by n
decreasing_by
  exact Nat.div_lt_self (by omega) (by omega)

theorem natChars_lt (n : Nat) (h : n < 10) : natChars n = [Nat.digitChar n] := by
  rw [natChars, if_pos h]

theorem natChars_ge (n : Nat) (h : ¬ n < 10) :
    natChars n = natChars (n / 10) ++ [Nat.digitChar (n % 10)] := by
  rw [natChars, if_neg h]

theorem toDigitsCore_eq_natChars (fuel n : Nat) (ds : List Char) (h : n < fuel) :
    Nat.toDigitsCore 10 fuel n ds = natChars n ++ ds := by
  induction fuel generalizing n ds with
  | zero => omega
  | succ fuel ih =>
    rw [Nat.toDigitsCore]
    by_cases h10 : n / 10 = 0
    · have hn : n < 10 := by omega
      rw [if_pos h10, natChars_lt n hn]
      have hm : n % 10 = n := Nat.mod_eq_of_lt hn
      simp [hm]
    · have hn : ¬ n < 10 := by
        intro hc
        exact h10 (Nat.div_eq_of_lt hc)
      have hd : n / 10 < n := Nat.div_lt_self (by omega) (by norm_num)
      have hf : n / 10 < fuel := by omega
      rw [if_neg h10, ih _ _ hf, natChars_ge n hn]
      simp

theorem natChars_eq_toDigits (n : Nat) : Nat.toDigits 10 n = natChars n := by
  rw [Nat.toDigits, toDigitsCore_eq_natChars _ _ _ (Nat.lt_succ_self n)]
  simp

/-- Decode a digit character back to its value. -/
def digitVal (c : Char) : Nat := c.toNat - '0'.toNat

/-- Decode a decimal digit string back to the number. -/
def decodeDigits (l : List Char) : Nat :=
  l.foldl (fun acc c => acc * 10 + digitVal c) 0

theorem digitVal_digitChar (d : Nat) (h : d < 10) :
    digitVal (Nat.digitChar d) = d := by
  interval_cases d <;> rfl

theorem decodeDigits_append (l : List Char) (c : Char) :
    decodeDigits (l ++ [c]) = decodeDigits l * 10 + digitVal c := by
  simp [decodeDigits, List.foldl_append]

theorem decodeDigits_natChars (n : Nat) : decodeDigits (natChars n) = n := by
  induction n using Nat.strong_induction_on with
  | _ n ih =>
    by_cases h : n < 10
    · rw [natChars_lt n h]
      simp [decodeDigits, digitVal_digitChar n h]
    · rw [natChars_ge n h]
      rw [decodeDigits_append, ih (n / 10) (Nat.div_lt_self (by omega) (by omega)),
        digitVal_digitChar _ (Nat.mod_lt _ (by omega))]
      omega

theorem natChars_injective : Function.Injective natChars := by
  intro a b h
  have := decodeDigits_natChars a
  rw [h, decodeDigits_natChars] at this
  omega

theorem digitChar_isDigit (d : Nat) (h : d < 10) : (Nat.digitChar d).isDigit := by
  interval_cases d <;> decide

theorem natChars_all_isDigit (n : Nat) : ∀ c ∈ natChars n, c.isDigit := by
  induction n using Nat.strong_induction_on with
  | _ n ih =>
    by_cases h : n < 10
    · rw [natChars_lt n h]
      intro c hc
      simp at hc
      subst hc
      exact digitChar_isDigit n h
    · rw [natChars_ge n h]
      intro c hc
      rw [List.mem_append] at hc
      rcases hc with hc | hc
      · exact ih (n / 10) (Nat.div_lt_self (by omega) (by omega)) c hc
      · simp at hc
        subst hc
        exact digitChar_isDigit _ (Nat.mod_lt _ (by omega))

theorem repr_data (n : Nat) : (Nat.repr n).data = natChars n := by
  rw [Nat.repr, natChars_eq_toDigits]
  rfl

theorem repr_injective : Function.Injective Nat.repr := by
  intro a b h
  apply natChars_injective
  rw [← repr_data, ← repr_data, h]

/-- Splitting a `digits ++ '-' :: rest` shape is unambiguous. -/
theorem digits_dash_split (l₁ l₂ r₁ r₂ : List Char)
    (h₁ : ∀ c ∈ l₁, c.isDigit) (h₂ : ∀ c ∈ l₂, c.isDigit)
    (h : l₁ ++ '-' :: r₁ = l₂ ++ '-' :: r₂) : l₁ = l₂ ∧ r₁ = r₂ := by
  induction l₁ generalizing l₂ with
  | nil =>
    cases l₂ with
    | nil => simpa using h
    | cons b bs =>
      simp at h
      exfalso
      have := h₂ b (by simp)
      rw [← h.1] at this
      simp [Char.isDigit] at this
  | cons a as ih =>
    cases l₂ with
    | nil =>
      simp at h
      exfalso
      have := h₁ a (by simp)
      rw [h.1] at this
      simp [Char.isDigit] at this
    | cons b bs =>
      simp at h
      obtain ⟨rfl, h'⟩ := h
      have hrec := ih bs (fun c hc => h₁ c (List.mem_cons_of_mem _ hc))
        (fun c hc => h₂ c (List.mem_cons_of_mem _ hc)) h'
      exact ⟨by rw [hrec.1], hrec.2⟩

/-! ### BatchPlanner (src/unnamed/part_004 `getOutputPath`/`getBatchMetadataPath`,
src/src/index.ts lines 284-302 `getMetadataOutputPath`)

`batchStart = Math.floor((edition - 1) / batchSize) * batchSize + 1`,
`batchEnd = batchStart + batchSize - 1`, key `` `${batchStart}-${batchEnd}` ``.
Editions are 1-based, so `edition - 1` is non-negative and `Math.floor` of the
non-negative quotient is `Nat` division. -/

/-- Start of the batch containing `edition` (source formula, shared verbatim by
`getOutputPath`, `getBatchMetadataPath` and `getMetadataOutputPath`). -/
def computeBatchStart (edition batchSize : Nat) : Nat :=
  (edition - 1) / batchSize * batchSize + 1

/-- End of the batch containing `edition`. -/
def computeBatchEnd (edition batchSize : Nat) : Nat :=
  computeBatchStart edition batchSize + batchSize - 1

/-- The batch key string `"start-end"`. -/
def computeBatchKey (edition batchSize : Nat) : String :=
  Nat.repr (computeBatchStart edition batchSize) ++ "-"
    ++ Nat.repr (computeBatchEnd edition batchSize)

/-- Embeds `getOutputPath` from src/unnamed/part_004 (lines 56-69); the
`mkdirSync` side effect is omitted, the returned path is modelled. -/
def getOutputPath (edition : Nat) (outputImagesDir imageFormat : String)
    (batchSize : Nat) : String :=
  let batchStart := (edition - 1) / batchSize * batchSize + 1
  let batchEnd := batchStart + batchSize - 1
  let batchDir := Nat.repr batchStart ++ "-" ++ Nat.repr batchEnd
  outputImagesDir ++ "/" ++ batchDir ++ "/img/" ++ Nat.repr edition ++ "." ++ imageFormat

/-- Embeds `getMetadataOutputPath` from src/src/index.ts (lines 284-302): with a
falsy (`0`) batch size the flat path is used, otherwise the batch directory. -/
def getMetadataOutputPath (edition : Nat) (outputDir : String) (batchSize : Nat) :
    String :=
  if batchSize = 0 then outputDir ++ "/" ++ Nat.repr edition ++ ".json"
  else
    let batchStart := (edition - 1) / batchSize * batchSize + 1
    let batchEnd := batchStart + batchSize - 1
    let batchDir := Nat.repr batchStart ++ "-" ++ Nat.repr batchEnd
    outputDir ++ "/" ++ batchDir ++ "/metadata/" ++ Nat.repr edition ++ ".json"

/-- Embeds `getBatchMetadataPath` from src/unnamed/part_004 (lines 46-53). -/
def getBatchMetadataPath (edition : Nat) (outputDir : String) (batchSize : Nat) :
    String :=
  let batchStart := (edition - 1) / batchSize * batchSize + 1
  let batchEnd := batchStart + batchSize - 1
  let batchKey := Nat.repr batchStart ++ "-" ++ Nat.repr batchEnd
  outputDir ++ "/" ++ batchKey ++ "/metadata/metadata.json"

theorem computeBatchStart_le (edition batchSize : Nat) (h1 : 1 ≤ edition) :
    computeBatchStart edition batchSize ≤ edition := by
  unfold computeBatchStart
  have := Nat.div_mul_le_self (edition - 1) batchSize
  omega

theorem le_computeBatchEnd (edition batchSize : Nat) (h1 : 1 ≤ edition)
    (hB : 0 < batchSize) : edition ≤ computeBatchEnd edition batchSize := by
  unfold computeBatchEnd computeBatchStart
  have hdm := Nat.div_add_mod (edition - 1) batchSize
  rw [Nat.mul_comm] at hdm
  have hm : (edition - 1) % batchSize < batchSize := Nat.mod_lt _ hB
  omega

theorem computeBatchStart_eq_iff (i j batchSize : Nat) (hB : 0 < batchSize) :
    computeBatchStart i batchSize = computeBatchStart j batchSize
      ↔ (i - 1) / batchSize = (j - 1) / batchSize := by
  unfold computeBatchStart
  constructor
  · intro h
    have h' : (i - 1) / batchSize * batchSize = (j - 1) / batchSize * batchSize := by
      omega
    exact Nat.eq_of_mul_eq_mul_right hB h'
  · intro h
    rw [h]

theorem computeBatchKey_eq_iff (i j batchSize : Nat) :
    computeBatchKey i batchSize = computeBatchKey j batchSize
      ↔ computeBatchStart i batchSize = computeBatchStart j batchSize := by
  constructor
  · intro h
    unfold computeBatchKey at h
    have hdata : (Nat.repr (computeBatchStart i batchSize) ++ "-"
        ++ Nat.repr (computeBatchEnd i batchSize)).data
        = (Nat.repr (computeBatchStart j batchSize) ++ "-"
        ++ Nat.repr (computeBatchEnd j batchSize)).data := by rw [h]
    simp only [String.data_append] at hdata
    simp only [List.append_assoc, List.singleton_append] at hdata
    have hsplit := digits_dash_split _ _ _ _
      (by rw [repr_data]; exact natChars_all_isDigit _)
      (by rw [repr_data]; exact natChars_all_isDigit _) hdata
    have := hsplit.1
    exact repr_injective (by
      apply String.ext
      rw [this])
  · intro h
    unfold computeBatchKey computeBatchEnd
    rw [h]

theorem computeBatchKey_of_mem (i j batchSize : Nat) (hB : 0 < batchSize)
    (hlo : computeBatchStart i batchSize ≤ j) (hhi : j ≤ computeBatchEnd i batchSize) :
    computeBatchKey j batchSize = computeBatchKey i batchSize := by
  rw [computeBatchKey_eq_iff, computeBatchStart_eq_iff _ _ _ hB]
  unfold computeBatchStart at hlo
  unfold computeBatchEnd computeBatchStart at hhi
  apply Nat.div_eq_of_lt_le
  · -- (i-1)/B * B ≤ j - 1
    omega
  · have hdm := Nat.div_add_mod (i - 1) batchSize
    rw [Nat.mul_comm] at hdm
    have hm : (i - 1) % batchSize < batchSize := Nat.mod_lt _ hB
    have hs : ((i - 1) / batchSize + 1) * batchSize
        = (i - 1) / batchSize * batchSize + batchSize := by ring
    omega

/-- C1.  For every item index `i ≥ 1` and batch size `B > 0`: the item lies in
its own batch range, the range has full width `B`, two indices get the same
key exactly when they lie in the same block `floor((index-1)/B)` (so keys
induce a partition into disjoint contiguous ranges with no gaps: the index
right after one range is the start of the next), every index inside a range
gets that range's key, with `B = 10` item 23 maps to key `"21-30"`, and
`getOutputPath`, `getMetadataOutputPath` and `getBatchMetadataPath` all build
their paths from this same key for the same `(i, B)`. -/
theorem batch_key_partition (i j batchSize : Nat) (dir fmt : String)
    (hi : 1 ≤ i) (hj : 1 ≤ j) (hB : 0 < batchSize) :
    (computeBatchStart i batchSize ≤ i ∧ i ≤ computeBatchEnd i batchSize) ∧
    computeBatchEnd i batchSize + 1 = computeBatchStart i batchSize + batchSize ∧
    (computeBatchKey i batchSize = computeBatchKey j batchSize
      ↔ (i - 1) / batchSize = (j - 1) / batchSize) ∧
    computeBatchStart (computeBatchEnd i batchSize + 1) batchSize
      = computeBatchEnd i batchSize + 1 ∧
    (computeBatchStart i batchSize ≤ j → j ≤ computeBatchEnd i batchSize →
      computeBatchKey j batchSize = computeBatchKey i batchSize) ∧
    computeBatchKey 23 10 = "21-30" ∧
    getOutputPath i dir fmt batchSize
      = dir ++ "/" ++ computeBatchKey i batchSize ++ "/img/"
        ++ Nat.repr i ++ "." ++ fmt ∧
    getMetadataOutputPath i dir batchSize
      = dir ++ "/" ++ computeBatchKey i batchSize ++ "/metadata/"
        ++ Nat.repr i ++ ".json" ∧
    getBatchMetadataPath i dir batchSize
      = dir ++ "/" ++ computeBatchKey i batchSize ++ "/metadata/metadata.json" := by
  refine ⟨⟨computeBatchStart_le i batchSize hi, le_computeBatchEnd i batchSize hi hB⟩,
    ?_, ?_, ?_, ?_, by decide, ?_, ?_, ?_⟩
  · unfold computeBatchEnd computeBatchStart
    omega
  · rw [computeBatchKey_eq_iff, computeBatchStart_eq_iff _ _ _ hB]
  · -- the index right after a batch end starts the next batch
    unfold computeBatchEnd computeBatchStart
    have hq : ((i - 1) / batchSize + 1) * batchSize
        = (i - 1) / batchSize * batchSize + batchSize := by ring
    have h1 : (i - 1) / batchSize * batchSize + 1 + batchSize - 1 + 1
        = ((i - 1) / batchSize + 1) * batchSize + 1 := by omega
    rw [h1]
    have h2 : ((i - 1) / batchSize + 1) * batchSize + 1 - 1
        = ((i - 1) / batchSize + 1) * batchSize := by omega
    rw [h2, Nat.mul_comm ((i - 1) / batchSize + 1) batchSize,
      Nat.mul_div_cancel_left _ hB]
    ring
  · exact fun hlo hhi => computeBatchKey_of_mem i j batchSize hB hlo hhi
  · simp [getOutputPath, computeBatchKey, computeBatchStart, computeBatchEnd, String.append_assoc]
  · simp [getMetadataOutputPath, computeBatchKey, computeBatchStart, computeBatchEnd,
      Nat.pos_iff_ne_zero.mp hB, String.append_assoc]
  · simp [getBatchMetadataPath, computeBatchKey, computeBatchStart, computeBatchEnd,
      String.append_assoc]

/-- Witness for `batch_key_partition` at `i = 23`, `j = 5`, `B = 10`. -/
theorem batch_key_partition_witness :
    (1 ≤ 23 ∧ 1 ≤ 5 ∧ 0 < 10) ∧ computeBatchKey 23 10 = "21-30" :=
  ⟨by decide,
    (batch_key_partition 23 5 10 "output" "png" (by decide) (by decide)
      (by decide)).2.2.2.2.2.1⟩

/-! ### Generation stage (src/unnamed/part_004)

`resumeImageGeneration` (lines 441-476) decides the start index from the
`generation_progress.json` snapshot; `generateImages` (lines 223-438) splits
the 0-indexed range over threads; `workerFunction` (lines 108-220) renders the
items of one range.  File-system reads/writes and the sharp pipeline are
replaced by explicit inputs (the snapshot, the metadata entries, which layer
files resolve, whether the encode throws). -/

/-- The state of the `generation_progress.json` file when
`resumeImageGeneration` runs: absent, present but unparsable (`JSON.parse`
throws), or a parsed snapshot with its `currentIndex` and `completed` fields. -/
inductive PriorProgress where
  | absent
  | unreadable
  | snapshot (currentIndex : Nat) (completed : Bool)
deriving DecidableEq, Repr

/-- Whether `fs.existsSync(progressFilePath)` is true. -/
def PriorProgress.fileExists : PriorProgress → Bool
  | .absent => false
  | _ => true

/-- Embeds the branch structure of `resumeImageGeneration` (lines 441-476):
the `startIndex` it passes to `generateImages`.  The `unlinkSync` discards are
side effects on the file; the decision is the returned index. -/
def resumeStartIndex (forceRegenerate : Bool) (p : PriorProgress) : Nat :=
  if forceRegenerate && p.fileExists then 1
  else if !p.fileExists then 1
  else
    match p with
    | .snapshot currentIndex completed =>
        if completed then 1 else currentIndex + 1
    | _ => 1

/-- Whether `resumeImageGeneration` deletes (discards) the prior snapshot
file before generating. -/
def resumeDiscards (forceRegenerate : Bool) (p : PriorProgress) : Bool :=
  if forceRegenerate && p.fileExists then true
  else if !p.fileExists then false
  else
    match p with
    | .snapshot _ completed => completed
    | _ => false

/-- An NFT metadata record as far as the worker uses it: its edition.  The
attribute list is abstracted into `resolvedLayers` below. -/
structure WorkerEnv where
  /-- editions present in the loaded batch `metadata.json` files
  (`allNfts` in `workerFunction`). -/
  nfts : List Nat
  /-- how many of the item's layer files pass the `fs.existsSync` check
  (the length of `layers` built in lines 153-171). -/
  resolvedLayers : Nat → Nat
  /-- Value `none` if the sharp encode succeeds, `some msg` if it throws. -/
  renderResult : Nat → Option String

/-- Events a worker posts to `parentPort` (messages of lines 136, 205, 211,
218).  `noMetadataError` stands for the `{type:'error', edition:-1}` message
sent when the loaded metadata map is empty. -/
inductive WorkerEvent where
  | progress (edition : Nat)
  | error (edition : Nat) (msg : String)
  | noMetadataError
  | done (processedCount : Nat)
deriving DecidableEq, Repr

/-- One iteration of the `for (let i = startIdx; i <= endIdx; i++)` loop of
`workerFunction` for `edition = i + 1`: the image written (if any) and the
events posted. -/
def processItem (env : WorkerEnv) (edition : Nat) :
    Option Nat × List WorkerEvent :=
  if ¬ edition ∈ env.nfts then (none, [])        -- `if (!nft) continue` (line 146)
  else if env.resolvedLayers edition = 0 then (none, [])  -- `if (layers.length > 0)` fails
  else
    match env.renderResult edition with
    | none => (some edition, [.progress edition])
    | some msg => (none, [.error edition msg])

/-- The editions a worker with 0-indexed range `[startIdx, endIdx]` visits:
`startIdx + 1, …, endIdx + 1`. -/
def workerItems (startIdx endIdx : Nat) : List Nat :=
  List.range' (startIdx + 1) (endIdx + 1 - startIdx)

/-- Embeds `workerFunction` (lines 108-220): the images written and the
events posted for the range `[startIdx, endIdx]` (0-indexed).  `processedCount`
in the final `done` message is `endIdx - startIdx + 1`, independent of how
many items were actually rendered. -/
def workerRun (env : WorkerEnv) (startIdx endIdx : Nat) :
    List Nat × List WorkerEvent :=
  if env.nfts = [] then ([], [.noMetadataError])
  else
    ((workerItems startIdx endIdx).filterMap fun e => (processItem env e).1,
      ((workerItems startIdx endIdx).flatMap fun e => (processItem env e).2)
        ++ [.done (endIdx - startIdx + 1)])

/-- The progress record written by `generateImages` (lines 297-309). -/
structure GenProgress where
  startIndex : Nat
  currentIndex : Nat
  endIndex : Nat
  totalToGenerate : Nat
  generated : Nat
  completed : Bool
deriving DecidableEq, Repr

/-- The initial `progressData` of `generateImages` (lines 297-309). -/
def initialGenProgress (startIndex actualEndIndex : Nat) : GenProgress :=
  { startIndex := startIndex
    currentIndex := startIndex
    endIndex := actualEndIndex
    totalToGenerate := (actualEndIndex - 1) - (startIndex - 1) + 1
    generated := 0
    completed := false }

/-- The single-thread (`numThreads <= 1`) completion write of `generateImages`
(lines 327-332): `generated` is set to the full range size, `currentIndex` to
the end, `completed` to `true` — regardless of how many items the worker
actually rendered. -/
def singleThreadFinish (startIdx endIdx actualEndIndex : Nat)
    (p : GenProgress) : GenProgress :=
  { p with generated := endIdx - startIdx + 1
           currentIndex := actualEndIndex
           completed := true }

/-- The single-thread path of `generateImages` for a validated range
(`1 ≤ startIndex ≤ actualEndIndex`): the final progress record, the editions
written, and the worker events (dropped on the floor in this mode because
`parentPort` is null, but still what `workerFunction` would post). -/
def generateImagesSingle (env : WorkerEnv) (startIndex actualEndIndex : Nat) :
    GenProgress × List Nat × List WorkerEvent :=
  let startIdx := startIndex - 1
  let endIdx := actualEndIndex - 1
  let p := initialGenProgress startIndex actualEndIndex
  let r := workerRun env startIdx endIdx
  (singleThreadFinish startIdx endIdx actualEndIndex p, r.1, r.2)

/-- Formula `nftsPerThread = Math.ceil(totalNfts / numThreads)` (line 342). -/
def nftsPerThread (totalNfts numThreads : Nat) : Nat :=
  (totalNfts + numThreads - 1) / numThreads

/-- The 0-indexed range of worker `i` in the multi-thread path
(lines 350-353), `none` when the thread is skipped
(`threadStartIdx > endIdx`). -/
def threadRange (startIdx endIdx per i : Nat) : Option (Nat × Nat) :=
  if endIdx < startIdx + i * per then none
  else some (startIdx + i * per, min (startIdx + (i + 1) * per - 1) endIdx)

/-- All editions written across the worker pool (multi-thread path of
`generateImages`, lines 349-367). -/
def multiThreadWrites (env : WorkerEnv) (startIdx endIdx numThreads : Nat) :
    List Nat :=
  (List.range numThreads).flatMap fun i =>
    match threadRange startIdx endIdx (nftsPerThread (endIdx - startIdx + 1) numThreads) i with
    | none => []
    | some (ts, te) => (workerRun env ts te).1

theorem workerItems_mem (startIdx endIdx e : Nat) (h : e ∈ workerItems startIdx endIdx) :
    startIdx + 1 ≤ e ∧ e ≤ endIdx + 1 := by
  unfold workerItems at h
  rw [List.mem_range'] at h
  omega

theorem workerRun_writes_ge (env : WorkerEnv) (startIdx endIdx e : Nat)
    (h : e ∈ (workerRun env startIdx endIdx).1) : startIdx + 1 ≤ e ∧ e ≤ endIdx + 1 := by
  unfold workerRun at h
  by_cases hn : env.nfts = []
  · simp [hn] at h
  · simp only [hn, if_neg, ite_false] at h
    rw [List.mem_filterMap] at h
    obtain ⟨a, ha, hpa⟩ := h
    have hae := workerItems_mem _ _ _ ha
    unfold processItem at hpa
    split at hpa
    · simp at hpa
    · split at hpa
      · simp at hpa
      · split at hpa
        · simp at hpa
          omega
        · simp at hpa

theorem multiThreadWrites_ge (env : WorkerEnv) (startIdx endIdx numThreads e : Nat)
    (h : e ∈ multiThreadWrites env startIdx endIdx numThreads) :
    startIdx + 1 ≤ e := by
  unfold multiThreadWrites at h
  rw [List.mem_flatMap] at h
  obtain ⟨i, _, hmem⟩ := h
  cases hr : threadRange startIdx endIdx (nftsPerThread (endIdx - startIdx + 1) numThreads) i with
  | none => rw [hr] at hmem; simp at hmem
  | some p =>
    rw [hr] at hmem
    obtain ⟨ts, te⟩ := p
    simp only at hmem
    have hw := workerRun_writes_ge env ts te e hmem
    unfold threadRange at hr
    split at hr
    · simp at hr
    · simp at hr
      omega

/-- C2.  Startup resume decision of `resumeImageGeneration`: with
`forceRegenerate` set any prior snapshot is discarded and generation starts at
index 1; a snapshot with `completed = true` is discarded and generation
restarts at 1; a snapshot with `completed = false` and `currentIndex = K`
resumes at `startIndex = K + 1`, and every edition written by the resumed
generation (single- or multi-thread path) is `≥ K + 1`, so the outputs for
indices `1..K` are untouched; with no (readable) snapshot generation starts
at 1. -/
theorem resume_decision (k actualEndIndex numThreads : Nat) (env : WorkerEnv) :
    (∀ q, resumeStartIndex true q = 1) ∧
    (∀ q, resumeDiscards true q = q.fileExists) ∧
    resumeStartIndex false (.snapshot k true) = 1 ∧
    resumeDiscards false (.snapshot k true) = true ∧
    resumeStartIndex false (.snapshot k false) = k + 1 ∧
    resumeStartIndex false .absent = 1 ∧
    resumeStartIndex false .unreadable = 1 ∧
    (∀ e ∈ (generateImagesSingle env (k + 1) actualEndIndex).2.1, k + 1 ≤ e) ∧
    (∀ e ∈ multiThreadWrites env k (actualEndIndex - 1) numThreads, k + 1 ≤ e) := by
  refine ⟨fun q => ?_, fun q => ?_, rfl, rfl, rfl, rfl, rfl, fun e he => ?_, fun e he => ?_⟩
  · cases q <;> rfl
  · cases q <;> rfl
  · have := workerRun_writes_ge env (k + 1 - 1) (actualEndIndex - 1) e he
    omega
  · have := multiThreadWrites_ge env k (actualEndIndex - 1) numThreads e he
    omega

/-- Witness for `resume_decision` at `K = 5`: the resumed start index is 6 and
a concrete resumed single-thread run only writes editions `≥ 6`. -/
theorem resume_decision_witness :
    resumeStartIndex false (.snapshot 5 false) = 5 + 1 ∧
    (∀ e ∈ (generateImagesSingle ⟨[6], fun _ => 1, fun _ => none⟩ (5 + 1) 8).2.1,
      5 + 1 ≤ e) :=
  ⟨(resume_decision 5 8 4 ⟨[6], fun _ => 1, fun _ => none⟩).2.2.2.2.1,
    (resume_decision 5 8 4 ⟨[6], fun _ => 1, fun _ => none⟩).2.2.2.2.2.2.2.1⟩

/-! ### ChunkedUploadSession (src/src/uploadToDrive.ts `uploadFileInChunks`,
lines 232-361)

The loop keeps `uploadedBytes` and `retries`; each iteration sends the PUT
for `bytes uploadedBytes-(end-1)/fileSize` with `end = min(uploadedBytes +
chunkSize, fileSize)` and dispatches on the response.  The response is
abstracted into: 2xx success, 308 partial (carrying the server-confirmed
offset from the `Range` header, which the code never reads), retryable
(429 / 5xx / request network error / chunk stream error — lines 304-319,
332-341, 347-356 all run the same retry logic), or any other status
(fatal). -/

/-- One Content-Range PUT: inclusive byte range plus the declared total. -/
structure PutRequest where
  rangeStart : Nat
  rangeEnd : Nat
  totalSize : Nat
deriving DecidableEq, Repr

/-- Response classes of a chunk PUT as the code distinguishes them. -/
inductive ChunkResponse where
  /-- Status `200 <= status < 300`. -/
  | success
  /-- status 308; the server-confirmed offset sits in the (unread) `Range`
  header. -/
  | status308 (confirmedOffset : Nat)
  /-- status 429, status >= 500, a request network error, or a chunk stream
  read error. -/
  | retryable
  /-- any other status. -/
  | fatal
deriving DecidableEq, Repr

/-- Mutable loop state of `uploadFileInChunks`. -/
structure ChunkSessionState where
  uploadedBytes : Nat
  retries : Nat
deriving DecidableEq, Repr

/-- Result of handling one response. -/
inductive ChunkStepResult where
  /-- continue immediately with the next chunk (`uploadNextChunk()`). -/
  | next (s : ChunkSessionState)
  /-- retry the same chunk after `setTimeout(uploadNextChunk, delay)`; the
  recorded delay is the deterministic part `2^retries * 1000`, the code adds
  `Math.random() * 1000` jitter. -/
  | retryAfter (s : ChunkSessionState) (delayBaseMs : Nat)
  /-- Call `resolve(...)`: the file upload completed. -/
  | resolved
  /-- Call `reject(...)`: terminal failure of the whole file. -/
  | rejected
deriving DecidableEq, Repr

/-- Embeds the response handling of `uploadFileInChunks` (lines 276-356) at
state `s` for a file of `fileSize` bytes and chunk size `chunkSize`. -/
def chunkStep (fileSize chunkSize maxRetries : Nat) (s : ChunkSessionState)
    (r : ChunkResponse) : ChunkStepResult :=
  let e := min (s.uploadedBytes + chunkSize) fileSize
  match r with
  | .success =>
      -- lines 277-298: uploadedBytes = end; retries = 0; resolve or next chunk
      if fileSize ≤ e then .resolved else .next ⟨e, 0⟩
  | .status308 _ =>
      -- lines 299-303: uploadedBytes = end; retries = 0; uploadNextChunk()
      -- (which resolves immediately when uploadedBytes >= fileSize);
      -- the server-confirmed offset is ignored
      if fileSize ≤ e then .resolved else .next ⟨e, 0⟩
  | .retryable =>
      -- lines 304-319 (and 332-341, 347-356): same chunk, retries + 1,
      -- delay 2^retries * 1000 + jitter; reject once retries = maxRetries
      if s.retries < maxRetries then
        .retryAfter ⟨s.uploadedBytes, s.retries + 1⟩ (2 ^ (s.retries + 1) * 1000)
      else .rejected
  | .fatal =>
      -- lines 320-328: reject immediately
      .rejected

/-- Reference list of the PUT requests the loop issues from offset `u` when
every chunk is confirmed, written with explicit fuel so it evaluates; the
loop advances `u` by at least one per confirmed chunk once `0 < chunkSize`,
so fuel `fileSize - u` suffices (for `chunkSize = 0` the real loop never
terminates and the list is cut off by the fuel). -/
def putListAux (fileSize chunkSize : Nat) : Nat → Nat → List PutRequest
  | 0, _ => []
  | fuel + 1, u =>
      if fileSize ≤ u then []
      else ⟨u, min (u + chunkSize) fileSize - 1, fileSize⟩
        :: putListAux fileSize chunkSize fuel (min (u + chunkSize) fileSize)

/-- The PUT requests issued from offset `u` when every chunk is confirmed. -/
def putList (fileSize chunkSize u : Nat) : List PutRequest :=
  putListAux fileSize chunkSize (fileSize - u) u

/-- Outcome of running the session against a finite response trace. -/
inductive RunOutcome where
  | resolvedOut
  | rejectedOut
  | outOfResponses
deriving DecidableEq, Repr

/-- Runs `uploadFileInChunks` from state `s` against a trace of responses,
collecting the PUT requests issued (one per consumed response). -/
def runChunks (fileSize chunkSize maxRetries : Nat) (s : ChunkSessionState) :
    List ChunkResponse → List PutRequest × RunOutcome
  | [] =>
      if fileSize ≤ s.uploadedBytes then ([], .resolvedOut) else ([], .outOfResponses)
  | r :: rest =>
      if fileSize ≤ s.uploadedBytes then ([], .resolvedOut)
      else
        let req : PutRequest :=
          ⟨s.uploadedBytes, min (s.uploadedBytes + chunkSize) fileSize - 1, fileSize⟩
        match chunkStep fileSize chunkSize maxRetries s r with
        | .next s' =>
            let p := runChunks fileSize chunkSize maxRetries s' rest
            (req :: p.1, p.2)
        | .retryAfter s' _ =>
            let p := runChunks fileSize chunkSize maxRetries s' rest
            (req :: p.1, p.2)
        | .resolved => ([req], .resolvedOut)
        | .rejected => ([req], .rejectedOut)

/-- State after `n` consecutive retryable failures on one chunk, or the
terminal result if the budget ran out on the way. -/
def consecutiveFailures (fileSize chunkSize maxRetries : Nat)
    (s : ChunkSessionState) : Nat → ChunkStepResult
  | 0 => .next s
  | n + 1 =>
      match consecutiveFailures fileSize chunkSize maxRetries s n with
      | .next s' => chunkStep fileSize chunkSize maxRetries s' .retryable
      | .retryAfter s' _ => chunkStep fileSize chunkSize maxRetries s' .retryable
      | r => r

theorem putListAux_of_ge (S C fuel u : Nat) (h : S ≤ u) :
    putListAux S C fuel u = [] := by
  cases fuel with
  | zero => rfl
  | succ fuel => simp [putListAux, h]

theorem putListAux_length (S C : Nat) (hC : 0 < C) :
    ∀ fuel u, S - u ≤ fuel →
      (putListAux S C fuel u).length = (S - u + C - 1) / C := by
  intro fuel
  induction fuel with
  | zero =>
    intro u h
    have h0 : S - u = 0 := by omega
    simp only [putListAux, List.length_nil, h0]
    exact (Nat.div_eq_of_lt (by omega)).symm
  | succ fuel ih =>
    intro u h
    by_cases hu : S ≤ u
    · have h0 : S - u = 0 := by omega
      simp only [putListAux, if_pos hu, List.length_nil, h0]
      exact (Nat.div_eq_of_lt (by omega)).symm
    · simp only [putListAux, if_neg hu, List.length_cons]
      have hle : S - min (u + C) S ≤ fuel := by omega
      rw [ih _ hle]
      by_cases hcase : u + C < S
      · have h1 : min (u + C) S = u + C := by omega
        have h2 : S - u + C - 1 = (S - (u + C) + C - 1) + C := by omega
        rw [h1, h2, Nat.add_div_right _ hC]
      · have h1 : min (u + C) S = S := by omega
        have h3 : (S - min (u + C) S + C - 1) / C = 0 := by
          rw [h1]
          exact Nat.div_eq_of_lt (by omega)
        have h4 : (S - u + C - 1) / C = 1 :=
          Nat.div_eq_of_lt_le (by omega) (by omega)
        omega

theorem putListAux_get (S C : Nat) (hC : 0 < C) :
    ∀ i fuel u (hi : i < (putListAux S C fuel u).length),
      (putListAux S C fuel u)[i]
        = ⟨u + i * C, min (u + (i + 1) * C) S - 1, S⟩ := by
  intro i
  induction i with
  | zero =>
    intro fuel u hi
    cases fuel with
    | zero => simp [putListAux] at hi
    | succ fuel =>
      by_cases hu : S ≤ u
      · simp [putListAux, hu] at hi
      · simp only [putListAux, if_neg hu, List.getElem_cons_zero,
          PutRequest.mk.injEq]
        have e1 : (0 + 1) * C = C := by ring
        exact ⟨by omega, by rw [e1], trivial⟩
  | succ i ih =>
    intro fuel u hi
    cases fuel with
    | zero => simp [putListAux] at hi
    | succ fuel =>
      by_cases hu : S ≤ u
      · simp [putListAux, hu] at hi
      · have hi' : i < (putListAux S C fuel (min (u + C) S)).length := by
          have hl := hi
          simp only [putListAux, if_neg hu, List.length_cons] at hl
          omega
        have hlt : u + C < S := by
          by_contra hge
          have hnil : putListAux S C fuel (min (u + C) S) = [] :=
            putListAux_of_ge _ _ _ _ (by omega)
          rw [hnil] at hi'
          simp at hi'
        have hstep : (putListAux S C (fuel + 1) u)[i + 1]
            = (putListAux S C fuel (min (u + C) S))[i] := by
          simp only [putListAux, if_neg hu, List.getElem_cons_succ]
        rw [hstep, ih fuel (min (u + C) S) hi']
        have hmin : min (u + C) S = u + C := by omega
        have e1 : (i + 1) * C = i * C + C := by ring
        have e2 : (i + 1 + 1) * C = i * C + C + C := by ring
        simp only [PutRequest.mk.injEq, hmin]
        refine ⟨by omega, by omega, trivial⟩

theorem runChunks_allSuccess (S C M : Nat) (hC : 0 < C) :
    ∀ fuel u k, S - u ≤ fuel →
      runChunks S C M ⟨u, k⟩
          (List.replicate (putListAux S C fuel u).length .success)
        = (putListAux S C fuel u, .resolvedOut) := by
  intro fuel
  induction fuel with
  | zero =>
    intro u k h
    have hu : S ≤ u := by omega
    simp [putListAux, runChunks, hu]
  | succ fuel ih =>
    intro u k h
    by_cases hu : S ≤ u
    · rw [putListAux_of_ge _ _ _ _ hu]
      simp [runChunks, hu]
    · have heq : putListAux S C (fuel + 1) u
          = ⟨u, min (u + C) S - 1, S⟩
            :: putListAux S C fuel (min (u + C) S) := by
        simp [putListAux, hu]
      rw [heq]
      simp only [List.length_cons, List.replicate_succ]
      rw [runChunks]
      rw [if_neg hu]
      by_cases hend : S ≤ min (u + C) S
      · have hstep : chunkStep S C M ⟨u, k⟩ .success = .resolved := by
          unfold chunkStep
          simp only
          rw [if_pos hend]
        rw [hstep]
        have hnil : putListAux S C fuel (min (u + C) S) = [] :=
          putListAux_of_ge _ _ _ _ (by omega)
        rw [hnil]
      · have hstep : chunkStep S C M ⟨u, k⟩ .success
            = .next ⟨min (u + C) S, 0⟩ := by
          unfold chunkStep
          simp only
          rw [if_neg hend]
        rw [hstep]
        have hrec := ih (min (u + C) S) 0 (by omega)
        simp only
        rw [hrec]

theorem consecutiveFailures_le (S C M u : Nat) :
    ∀ n, 1 ≤ n → n ≤ M →
      consecutiveFailures S C M ⟨u, 0⟩ n = .retryAfter ⟨u, n⟩ (2 ^ n * 1000) := by
  intro n
  induction n with
  | zero => intro h1 _; omega
  | succ n ih =>
    intro _ h2
    cases n with
    | zero =>
      simp only [consecutiveFailures]
      unfold chunkStep
      simp only
      rw [if_pos (by omega : 0 < M)]
    | succ n =>
      have hrec := ih (by omega) (by omega)
      simp only [consecutiveFailures] at hrec ⊢
      rw [hrec]
      unfold chunkStep
      simp only
      rw [if_pos (by omega : n + 1 < M)]

theorem consecutiveFailures_reject (S C M u : Nat) :
    consecutiveFailures S C M ⟨u, 0⟩ (M + 1) = .rejected := by
  cases M with
  | zero =>
    simp only [consecutiveFailures]
    unfold chunkStep
    simp only
    rw [if_neg (by omega : ¬ (0 : Nat) < 0)]
  | succ M =>
    have hrec := consecutiveFailures_le S C (M + 1) u (M + 1) (by omega) (le_refl _)
    simp only [consecutiveFailures] at hrec ⊢
    rw [hrec]
    unfold chunkStep
    simp only
    rw [if_neg (by omega : ¬ M + 1 < M + 1)]

/-- C5.  A chunk PUT answered 429/5xx or failing with a network/stream error
is retried with the same `uploadedBytes` (hence the same byte range) after a
base delay of `2^attempt * 1000` ms (plus jitter, the `Math.random() * 1000`
summand not modelled); a confirmed chunk (2xx or 308) resets the retry
counter to 0; starting from a fresh chunk, the `n`-th consecutive failure
(`n ≤ maxRetries`) still schedules a retry, the `(maxRetries+1)`-th rejects
the whole file (and a rejected run makes no further attempt); any other
response class rejects immediately. -/
theorem chunk_retry_policy (S C M n off : Nat) (s : ChunkSessionState) :
    (s.retries < M →
      chunkStep S C M s .retryable
        = .retryAfter ⟨s.uploadedBytes, s.retries + 1⟩
            (2 ^ (s.retries + 1) * 1000)) ∧
    (¬ S ≤ s.uploadedBytes + C →
      chunkStep S C M s .success = .next ⟨s.uploadedBytes + C, 0⟩ ∧
      chunkStep S C M s (.status308 off) = .next ⟨s.uploadedBytes + C, 0⟩) ∧
    (1 ≤ n → n ≤ M →
      consecutiveFailures S C M ⟨s.uploadedBytes, 0⟩ n
        = .retryAfter ⟨s.uploadedBytes, n⟩ (2 ^ n * 1000)) ∧
    consecutiveFailures S C M ⟨s.uploadedBytes, 0⟩ (M + 1) = .rejected ∧
    chunkStep S C M s .fatal = .rejected := by
  refine ⟨fun h => ?_, fun h => ⟨?_, ?_⟩,
    fun h1 h2 => consecutiveFailures_le S C M _ n h1 h2,
    consecutiveFailures_reject S C M _, rfl⟩
  · unfold chunkStep
    simp only
    rw [if_pos h]
  · unfold chunkStep
    simp only
    rw [if_neg (by omega : ¬ S ≤ min (s.uploadedBytes + C) S)]
    have hmin : min (s.uploadedBytes + C) S = s.uploadedBytes + C := by omega
    rw [hmin]
  · unfold chunkStep
    simp only
    rw [if_neg (by omega : ¬ S ≤ min (s.uploadedBytes + C) S)]
    have hmin : min (s.uploadedBytes + C) S = s.uploadedBytes + C := by omega
    rw [hmin]

/-- Witness for `chunk_retry_policy` at `maxRetries = 5`, a chunk in state
`retries = 2`, and a fresh chunk suffering 3 and then 6 consecutive
failures. -/
theorem chunk_retry_policy_witness :
    (2 < 5 ∧ (1 : Nat) ≤ 3 ∧ (3 : Nat) ≤ 5) ∧
    chunkStep 100 10 5 ⟨0, 2⟩ .retryable = .retryAfter ⟨0, 3⟩ (2 ^ 3 * 1000) ∧
    consecutiveFailures 100 10 5 ⟨0, 0⟩ 3 = .retryAfter ⟨0, 3⟩ (2 ^ 3 * 1000) ∧
    consecutiveFailures 100 10 5 ⟨0, 0⟩ 6 = .rejected :=
  ⟨by omega,
    (chunk_retry_policy 100 10 5 3 7 ⟨0, 2⟩).1 (by decide),
    (chunk_retry_policy 100 10 5 3 7 ⟨0, 2⟩).2.2.1 (by decide) (by decide),
    (chunk_retry_policy 100 10 5 3 7 ⟨0, 0⟩).2.2.2.1⟩

theorem putList_zero (S C : Nat) : putList S C 0 = putListAux S C S 0 := rfl

theorem chunk_full_bound (S C i : Nat) (hC : 0 < C)
    (h : i + 1 < (S + C - 1) / C) : (i + 1) * C + 1 ≤ S := by
  have h2 : 2 ≤ (S + C - 1) / C := by omega
  have hS : C + 1 ≤ S := by
    have := (Nat.le_div_iff_mul_le hC).mp h2
    omega
  have hd : (S + C - 1) / C = (S - 1) / C + 1 := by
    have hrw : S + C - 1 = (S - 1) + C := by omega
    rw [hrw, Nat.add_div_right _ hC]
  have hle : i + 1 ≤ (S - 1) / C := by omega
  have hmul : (i + 1) * C ≤ (S - 1) / C * C := Nat.mul_le_mul_right C hle
  have := Nat.div_mul_le_self (S - 1) C
  omega

theorem ceil_mul_ge (S C : Nat) (hC : 0 < C) : S ≤ (S + C - 1) / C * C := by
  have hdm := Nat.div_add_mod (S + C - 1) C
  have hm : (S + C - 1) % C < C := Nat.mod_lt _ hC
  have hq : C * ((S + C - 1) / C) = (S + C - 1) / C * C := Nat.mul_comm _ _
  omega

/-- C6.  For a file of `S` bytes and chunk size `C > 0`, with every chunk
confirmed on first attempt the session issues exactly `ceil(S/C)` PUTs, the
`i`-th (0-based) covering bytes `[i*C, min((i+1)*C, S) - 1]` with the total
declared size: ranges are contiguous and strictly increasing, every
non-final chunk has size `C`, the final chunk ends at byte `S - 1` and has
size `S - (ceil(S/C) - 1)*C`; in particular a 12 MiB file with 5 MiB chunks
yields exactly the 3 PUTs of sizes 5, 5 and 2 MiB. -/
theorem chunked_send_shape (S C M i : Nat) (hC : 0 < C)
    (hi : i < (putList S C 0).length) :
    (putList S C 0).length = (S + C - 1) / C ∧
    runChunks S C M ⟨0, 0⟩ (List.replicate (putList S C 0).length .success)
      = (putList S C 0, .resolvedOut) ∧
    (putList S C 0)[i] = ⟨i * C, min ((i + 1) * C) S - 1, S⟩ ∧
    (i + 1 < (putList S C 0).length →
      ((putList S C 0)[i]).rangeEnd + 1 - ((putList S C 0)[i]).rangeStart = C) ∧
    (∀ hj : i + 1 < (putList S C 0).length,
      ((putList S C 0)[i + 1]).rangeStart = ((putList S C 0)[i]).rangeEnd + 1 ∧
      ((putList S C 0)[i]).rangeStart < ((putList S C 0)[i + 1]).rangeStart) ∧
    (i + 1 = (putList S C 0).length →
      ((putList S C 0)[i]).rangeEnd + 1 = S ∧
      ((putList S C 0)[i]).rangeEnd + 1 - ((putList S C 0)[i]).rangeStart
        = S - ((S + C - 1) / C - 1) * C) ∧
    putList 12582912 5242880 0
      = [⟨0, 5242879, 12582912⟩, ⟨5242880, 10485759, 12582912⟩,
         ⟨10485760, 12582911, 12582912⟩] := by
  have hlen : (putList S C 0).length = (S + C - 1) / C := by
    have h := putListAux_length S C hC S 0 (by omega)
    simpa using h
  have hget : ∀ j (hj : j < (putList S C 0).length),
      (putList S C 0)[j] = ⟨j * C, min ((j + 1) * C) S - 1, S⟩ := by
    intro j hj
    have h := putListAux_get S C hC j S 0 hj
    simp only [Nat.zero_add] at h
    exact h
  have hS1 : 1 ≤ S := by
    have hn1 : 1 ≤ (S + C - 1) / C := by omega
    have := (Nat.le_div_iff_mul_le hC).mp hn1
    omega
  refine ⟨hlen, ?_, hget i hi, fun h4 => ?_, fun hj => ⟨?_, ?_⟩, fun h6 => ⟨?_, ?_⟩, ?_⟩
  · exact runChunks_allSuccess S C M hC S 0 0 (by omega)
  · rw [hget i hi]
    have hb := chunk_full_bound S C i hC (by omega)
    have e1 : (i + 1) * C = i * C + C := by ring
    simp only
    omega
  · rw [hget (i + 1) hj, hget i hi]
    show (i + 1) * C = min ((i + 1) * C) S - 1 + 1
    have hb := chunk_full_bound S C i hC (by omega)
    have e1 : (i + 1) * C = i * C + C := by ring
    omega
  · rw [hget (i + 1) hj, hget i hi]
    show i * C < (i + 1) * C
    have e1 : (i + 1) * C = i * C + C := by ring
    omega
  · rw [hget i hi]
    have hc := ceil_mul_ge S C hC
    have hni : (S + C - 1) / C = i + 1 := by omega
    rw [hni] at hc
    simp only
    omega
  · rw [hget i hi]
    have hc := ceil_mul_ge S C hC
    have hni : (S + C - 1) / C = i + 1 := by omega
    rw [hni] at hc
    have hni2 : (S + C - 1) / C - 1 = i := by omega
    rw [hni2]
    simp only
    omega
  · decide

/-- Witness for `chunked_send_shape` at the 12 MiB / 5 MiB scenario
(`i = 2`, the final chunk). -/
theorem chunked_send_shape_witness :
    ((0 : Nat) < 5242880 ∧ 2 < (putList 12582912 5242880 0).length) ∧
    putList 12582912 5242880 0
      = [⟨0, 5242879, 12582912⟩, ⟨5242880, 10485759, 12582912⟩,
         ⟨10485760, 12582911, 12582912⟩] :=
  ⟨⟨by omega, by decide⟩,
    (chunked_send_shape 12582912 5242880 5 2 (by omega)
      (by decide)).2.2.2.2.2.2⟩

/-- C7 counterexample: a 308 response whose server-confirmed offset is 3
(the server only kept 3 of the 5 bytes sent) still advances the tracked
offset to 5, the end of the chunk just sent — not to the server-confirmed
value. -/
theorem status308_counterexample :
    chunkStep 10 5 3 ⟨0, 0⟩ (.status308 3) = .next ⟨5, 0⟩ ∧
    chunkStep 10 5 3 ⟨0, 0⟩ (.status308 3) ≠ .next ⟨3, 0⟩ := by decide

/-- C7 amended: when a chunk PUT returns 308, the session unconditionally
advances its tracked offset by the chunk just sent (to
`min(uploadedBytes + chunkSize, fileSize)`, resetting the retry counter),
ignoring the server-reported offset entirely. -/
theorem status308_advances_by_chunk (S C M off : Nat)
    (s : ChunkSessionState) :
    chunkStep S C M s (.status308 off)
      = if S ≤ s.uploadedBytes + C then .resolved
        else .next ⟨s.uploadedBytes + C, 0⟩ := by
  unfold chunkStep
  simp only
  by_cases h : S ≤ s.uploadedBytes + C
  · rw [if_pos (by omega : S ≤ min (s.uploadedBytes + C) S), if_pos h]
  · rw [if_neg (by omega : ¬ S ≤ min (s.uploadedBytes + C) S), if_neg h]
    have hmin : min (s.uploadedBytes + C) S = s.uploadedBytes + C := by omega
    rw [hmin]

/-! ### TransferEngine (src/src/uploadToDrive.ts `uploadBatchToDrive`,
lines 366-533)

The progress object mirrors the `UploadProgress` interface (lines 25-39),
with the two maps as association lists (JS object property lookup/assignment
becomes `lookupKey`/`setEntry`; assignment order inside a settled concurrency
window commutes because the settled files have pairwise distinct names, so
the window is run left to right).  The file system is explicit: `diskFiles`
is the image listing of the batch `img` directory taken at line 395, and the
model's `disk` component tracks the files still on disk as
`deleteLocalAfterUpload` removes them.  The remote side is an oracle giving
each attempted file's terminal outcome (`uploadFileToDrive` resolving with a
drive id or rejecting). -/

/-- An `uploadedFiles` map entry (lines 27-32). -/
structure UploadedEntry where
  driveId : String
  path : String
  size : Nat
  uploadedAt : String
deriving DecidableEq, Repr

/-- A `failedUploads` map entry (lines 33-38). -/
structure FailedEntry where
  path : String
  attempts : Nat
  lastError : String
  lastAttempt : String
deriving DecidableEq, Repr

/-- The `drive_upload_progress.json` checkpoint (interface `UploadProgress`,
lines 25-39). -/
structure DriveProgress where
  lastBatchUploaded : Option String
  uploadedFiles : List (String × UploadedEntry)
  failedUploads : List (String × FailedEntry)
deriving DecidableEq, Repr

/-- JS object property read `m[k]`. -/
def lookupKey {α : Type} (k : String) : List (String × α) → Option α
  | [] => none
  | (k', v) :: rest => if k' = k then some v else lookupKey k rest

/-- JS object property write `m[k] = v`. -/
def setEntry {α : Type} (k : String) (v : α) (l : List (String × α)) :
    List (String × α) :=
  (k, v) :: l.filter fun p => p.1 ≠ k

/-- JS `delete m[k]`. -/
def removeEntry {α : Type} (k : String) (l : List (String × α)) :
    List (String × α) :=
  l.filter fun p => p.1 ≠ k

/-- Whether `progress.uploadedFiles[fileName]` is truthy. -/
def isUploaded (f : String) (p : DriveProgress) : Bool :=
  (lookupKey f p.uploadedFiles).isSome

/-- Terminal outcome of `uploadFileToDrive` for one file: resolve with a
drive id, or reject with an error message. -/
inductive UploadOutcome where
  | ok (driveId : String)
  | err (msg : String)

/-- The configuration and oracles of one `uploadBatchToDrive` invocation. -/
structure TransferConfig where
  deleteLocalAfterUpload : Bool
  concurrentUploads : Nat
  /-- outcome of `uploadFileToDrive` per filename. -/
  outcome : String → UploadOutcome
  /-- Result of `fs.statSync(file).size` per filename. -/
  fileSize : String → Nat
  /-- whether `getAccessToken` succeeds (line 408-417 early return). -/
  tokenOk : Bool

/-- Mutable state during one batch: the checkpoint object and the image
files still present in the batch `img` directory. -/
structure BatchRunState where
  progress : DriveProgress
  disk : List String
deriving Repr

/-- A completion-check moment: the disk contents and `uploadedFiles` at that
moment, and whether `lastBatchUploaded = batchKey` was assigned. -/
structure WindowCheck where
  disk : List String
  uploaded : List (String × UploadedEntry)
  didSet : Bool

/-- Everything one `uploadBatchToDrive` invocation produces: the final state,
the filenames for which a new upload request (`uploadFileToDrive` =
session open + chunk PUTs) was issued, the completion checks performed, and
the number of failed uploads (`failCount`). -/
structure BatchRunResult where
  state : BatchRunState
  requested : List String
  checks : List WindowCheck
  failCount : Nat

/-- One file's task inside a concurrency window (lines 438-495): skip if
already uploaded, otherwise upload and record success (entry added, stale
failure removed, local file deleted when configured) or failure (attempt
count bumped).  Returns the new state, the requests issued, and the
`success` flag of the settled result. -/
def processFile (cfg : TransferConfig) (s : BatchRunState) (f : String) :
    BatchRunState × List String × Bool :=
  match lookupKey f s.progress.uploadedFiles with
  | some _ => (s, [], true)
  | none =>
      let retryCount :=
        match lookupKey f s.progress.failedUploads with
        | some fr => fr.attempts
        | none => 0
      match cfg.outcome f with
      | .ok driveId =>
          let prog1 : DriveProgress :=
            { s.progress with
                uploadedFiles :=
                  setEntry f ⟨driveId, f, cfg.fileSize f, ""⟩
                    s.progress.uploadedFiles
                failedUploads := removeEntry f s.progress.failedUploads }
          let disk1 := if cfg.deleteLocalAfterUpload then s.disk.erase f else s.disk
          (⟨prog1, disk1⟩, [f], true)
      | .err msg =>
          let prog1 : DriveProgress :=
            { s.progress with
                failedUploads :=
                  setEntry f ⟨f, retryCount + 1, msg, ""⟩
                    s.progress.failedUploads }
          (⟨prog1, s.disk⟩, [f], false)

/-- One settled concurrency window (`Promise.all` of lines 438-497): the
tasks of the window, run over the shared progress object. -/
def runWindow (cfg : TransferConfig) (s : BatchRunState) :
    List String → BatchRunState × List String × Nat
  | [] => (s, [], 0)
  | f :: rest =>
      let r1 := processFile cfg s f
      let r2 := runWindow cfg r1.1 rest
      (r2.1, r1.2.1 ++ r2.2.1, (if r1.2.2 then 0 else 1) + r2.2.2)

/-- The `allBatchFilesUploaded` check of lines 504-511: assign
`lastBatchUploaded = batchKey` when every file of the initial listing has an
`uploadedFiles` entry. -/
def setLastIfAll (batchKey : String) (files : List String) (s : BatchRunState) :
    BatchRunState :=
  if files.all fun f => isUploaded f s.progress then
    ⟨{ s.progress with lastBatchUploaded := some batchKey }, s.disk⟩
  else s

/-- The window loop of lines 434-517: after each settled window the progress
is saved and `lastBatchUploaded` is assigned when `files.every(...)` — every
file of the initial listing — has an `uploadedFiles` entry. -/
def runWindows (cfg : TransferConfig) (batchKey : String) (files : List String)
    (s : BatchRunState) : List (List String) → BatchRunResult
  | [] => ⟨s, [], [], 0⟩
  | w :: ws =>
      let r1 := runWindow cfg s w
      let s2 := setLastIfAll batchKey files r1.1
      let check : WindowCheck :=
        ⟨s2.disk, s2.progress.uploadedFiles,
          files.all fun f => isUploaded f r1.1.progress⟩
      let r2 := runWindows cfg batchKey files s2 ws
      ⟨r2.state, r1.2.1 ++ r2.requested, check :: r2.checks, r1.2.2 + r2.failCount⟩

/-- The `filesToUpload.slice(i, i + concurrentUploads)` chunking of the loop at
line 434, with explicit fuel (one window consumes at least one file once
`0 < c`; the real loop never terminates for `c = 0`, which the fuel cuts
off). -/
def chunksOfAux {α : Type} (c : Nat) : Nat → List α → List (List α)
  | 0, _ => []
  | _, [] => []
  | fuel + 1, l => if c = 0 then [l] else l.take c :: chunksOfAux c fuel (l.drop c)

/-- The concurrency windows of a file list. -/
def chunksOf {α : Type} (c : Nat) (l : List α) : List (List α) :=
  chunksOfAux c l.length l

/-- One `uploadBatchToDrive` invocation's inputs tied to the batch
directory. -/
structure BatchInput where
  batchKey : String
  /-- Result of `fs.existsSync(imgDir)` (line 389). -/
  imgDirExists : Bool
  /-- the image files listed in the `img` directory at line 395 (basenames,
  already filtered to the png/jpg/jpeg extensions). -/
  diskFiles : List String

/-- The list `filesToUpload` (lines 426-429): the listed files without an
`uploadedFiles` entry in the loaded checkpoint. -/
def filesToUploadOf (p0 : DriveProgress) (files : List String) : List String :=
  files.filter fun f => (lookupKey f p0.uploadedFiles).isNone

/-- The window loop of one batch on the loaded checkpoint. -/
def batchMainRun (cfg : TransferConfig) (inp : BatchInput)
    (p0 : DriveProgress) : BatchRunResult :=
  runWindows cfg inp.batchKey inp.diskFiles ⟨p0, inp.diskFiles⟩
    (chunksOf cfg.concurrentUploads (filesToUploadOf p0 inp.diskFiles))

/-- The `failCount === 0` batch-end assignment (lines 528-532). -/
def finalSetState (batchKey : String) (r : BatchRunResult) : BatchRunState :=
  if r.failCount = 0 then
    ⟨{ r.state.progress with lastBatchUploaded := some batchKey }, r.state.disk⟩
  else r.state

/-- Embeds `uploadBatchToDrive` (lines 366-533) for an enabled config: early
returns for an already-uploaded batch key, a missing `img` directory, an
empty listing or a failed token exchange; otherwise the filtered
`filesToUpload` are processed in concurrency windows, with the completion
check after every window and the `failCount === 0` check at batch end. -/
def uploadBatchRun (cfg : TransferConfig) (inp : BatchInput)
    (p0 : DriveProgress) : BatchRunResult :=
  if p0.lastBatchUploaded = some inp.batchKey then ⟨⟨p0, inp.diskFiles⟩, [], [], 0⟩
  else if !inp.imgDirExists then ⟨⟨p0, inp.diskFiles⟩, [], [], 0⟩
  else if inp.diskFiles = [] then ⟨⟨p0, inp.diskFiles⟩, [], [], 0⟩
  else if !cfg.tokenOk then ⟨⟨p0, inp.diskFiles⟩, [], [], 0⟩
  else
    let r := batchMainRun cfg inp p0
    let s' := finalSetState inp.batchKey r
    ⟨s', r.requested,
      r.checks ++ [⟨s'.disk, s'.progress.uploadedFiles, decide (r.failCount = 0)⟩],
      r.failCount⟩

/-- A sequence of invocations against the same checkpoint file (each run
loads the progress the previous run saved): the final progress and every
filename for which any run issued a new upload request. -/
def runInvocations : List (TransferConfig × BatchInput) → DriveProgress →
    DriveProgress × List String
  | [], p => (p, [])
  | (cfg, inp) :: rest, p =>
      let r := uploadBatchRun cfg inp p
      let r2 := runInvocations rest r.state.progress
      (r2.1, r.requested ++ r2.2)

theorem lookupKey_filter_ne {α : Type} (g k : String) (l : List (String × α))
    (h : g ≠ k) :
    lookupKey g (l.filter fun p => p.1 ≠ k) = lookupKey g l := by
  induction l with
  | nil => rfl
  | cons hd tl ih =>
    obtain ⟨k', v⟩ := hd
    by_cases hk : k' = k
    · have hne : ¬ k' = g := fun hc => h (hc.symm.trans hk)
      simp only [List.filter_cons]
      rw [if_neg (by simp [hk]), ih]
      simp only [lookupKey]
      rw [if_neg hne]
    · simp only [List.filter_cons]
      rw [if_pos (by simp [hk])]
      by_cases hg : k' = g
      · simp only [lookupKey]
        rw [if_pos hg, if_pos hg]
      · simp only [lookupKey]
        rw [if_neg hg, if_neg hg]
        exact ih

theorem lookupKey_setEntry_self {α : Type} (k : String) (v : α)
    (l : List (String × α)) : lookupKey k (setEntry k v l) = some v := by
  simp [setEntry, lookupKey]

theorem lookupKey_setEntry_ne {α : Type} (g k : String) (v : α)
    (l : List (String × α)) (h : g ≠ k) :
    lookupKey g (setEntry k v l) = lookupKey g l := by
  unfold setEntry
  have hne : k ≠ g := fun hc => h hc.symm
  rw [show lookupKey g ((k, v) :: l.filter fun p => p.1 ≠ k)
      = lookupKey g (l.filter fun p => p.1 ≠ k) by simp [lookupKey, hne]]
  exact lookupKey_filter_ne g k l h

theorem processFile_mono (cfg : TransferConfig) (s : BatchRunState)
    (f g : String) (h : isUploaded g s.progress = true) :
    isUploaded g (processFile cfg s f).1.progress = true := by
  cases hl : lookupKey f s.progress.uploadedFiles with
  | some e => simpa [processFile, hl] using h
  | none =>
    cases ho : cfg.outcome f with
    | ok driveId =>
      by_cases hg : g = f
      · subst hg
        simp [processFile, hl, ho, isUploaded, lookupKey_setEntry_self]
      · simp only [processFile, hl, ho, isUploaded]
        rw [lookupKey_setEntry_ne _ _ _ _ hg]
        exact h
    | err msg => simpa [processFile, hl, ho] using h

theorem processFile_ne (cfg : TransferConfig) (s : BatchRunState)
    (f g : String) (h : g ≠ f) :
    isUploaded g (processFile cfg s f).1.progress = isUploaded g s.progress := by
  cases hl : lookupKey f s.progress.uploadedFiles with
  | some e => simp [processFile, hl]
  | none =>
    cases ho : cfg.outcome f with
    | ok driveId =>
      simp only [processFile, hl, ho, isUploaded]
      rw [lookupKey_setEntry_ne _ _ _ _ h]
    | err msg => simp [processFile, hl, ho, isUploaded]

theorem processFile_requested (cfg : TransferConfig) (s : BatchRunState)
    (f g : String) (h : g ∈ (processFile cfg s f).2.1) : g = f := by
  cases hl : lookupKey f s.progress.uploadedFiles with
  | some e => simp [processFile, hl] at h
  | none =>
    cases ho : cfg.outcome f with
    | ok driveId => simpa [processFile, hl, ho] using h
    | err msg => simpa [processFile, hl, ho] using h

theorem processFile_skip (cfg : TransferConfig) (s : BatchRunState)
    (f : String) (h : isUploaded f s.progress = true) :
    (processFile cfg s f).2.1 = [] := by
  unfold isUploaded at h
  cases hl : lookupKey f s.progress.uploadedFiles with
  | some e => simp [processFile, hl]
  | none => rw [hl] at h; simp at h

theorem processFile_success_iff (cfg : TransferConfig) (s : BatchRunState)
    (f : String) :
    (processFile cfg s f).2.2 = isUploaded f (processFile cfg s f).1.progress := by
  cases hl : lookupKey f s.progress.uploadedFiles with
  | some e => simp [processFile, hl, isUploaded]
  | none =>
    cases ho : cfg.outcome f with
    | ok driveId => simp [processFile, hl, ho, isUploaded, lookupKey_setEntry_self]
    | err msg => simp [processFile, hl, ho, isUploaded]

theorem processFile_disk_subset (cfg : TransferConfig) (s : BatchRunState)
    (f g : String) (h : g ∈ (processFile cfg s f).1.disk) : g ∈ s.disk := by
  cases hl : lookupKey f s.progress.uploadedFiles with
  | some e => simpa [processFile, hl] using h
  | none =>
    cases ho : cfg.outcome f with
    | ok driveId =>
      simp only [processFile, hl, ho] at h
      by_cases hd : cfg.deleteLocalAfterUpload
      · rw [if_pos hd] at h
        exact List.mem_of_mem_erase h
      · rw [if_neg hd] at h
        exact h
    | err msg => simpa [processFile, hl, ho] using h

theorem processFile_disk_removed (cfg : TransferConfig) (s : BatchRunState)
    (f g : String) (hg : g ∈ s.disk) (h : g ∉ (processFile cfg s f).1.disk) :
    isUploaded g (processFile cfg s f).1.progress = true := by
  cases hl : lookupKey f s.progress.uploadedFiles with
  | some e =>
    exfalso
    apply h
    simpa [processFile, hl] using hg
  | none =>
    cases ho : cfg.outcome f with
    | ok driveId =>
      by_cases hgf : g = f
      · subst hgf
        simp [processFile, hl, ho, isUploaded, lookupKey_setEntry_self]
      · exfalso
        apply h
        simp only [processFile, hl, ho]
        by_cases hd : cfg.deleteLocalAfterUpload
        · rw [if_pos hd]
          exact (List.mem_erase_of_ne hgf).mpr hg
        · rw [if_neg hd]
          exact hg
    | err msg =>
      exfalso
      apply h
      simpa [processFile, hl, ho] using hg

/-- Invariant tying the current disk contents to the initial listing
`files`: the disk only shrinks from `files`, and a listed file no longer on
disk was recorded uploaded before its deletion. -/
def DiskInv (files : List String) (s : BatchRunState) : Prop :=
  (∀ g ∈ s.disk, g ∈ files) ∧
  (∀ g ∈ files, g ∉ s.disk → isUploaded g s.progress = true)

theorem processFile_diskInv (cfg : TransferConfig) (s : BatchRunState)
    (f : String) (files : List String) (h : DiskInv files s) :
    DiskInv files (processFile cfg s f).1 := by
  obtain ⟨h1, h2⟩ := h
  constructor
  · intro g hg
    exact h1 g (processFile_disk_subset cfg s f g hg)
  · intro g hgf hgd
    by_cases hd : g ∈ s.disk
    · exact processFile_disk_removed cfg s f g hd hgd
    · exact processFile_mono cfg s f g (h2 g hgf hd)

theorem runWindow_mono (cfg : TransferConfig) :
    ∀ (w : List String) (s : BatchRunState) (g : String),
      isUploaded g s.progress = true →
      isUploaded g (runWindow cfg s w).1.progress = true := by
  intro w
  induction w with
  | nil => intro s g h; exact h
  | cons f rest ih =>
    intro s g h
    simp only [runWindow]
    exact ih _ g (processFile_mono cfg s f g h)

theorem runWindow_ne (cfg : TransferConfig) :
    ∀ (w : List String) (s : BatchRunState) (g : String), g ∉ w →
      isUploaded g (runWindow cfg s w).1.progress = isUploaded g s.progress := by
  intro w
  induction w with
  | nil => intro s g _; rfl
  | cons f rest ih =>
    intro s g h
    have h' : g ≠ f ∧ g ∉ rest := by simpa [List.mem_cons, not_or] using h
    simp only [runWindow]
    rw [ih _ g h'.2]
    exact processFile_ne cfg s f g h'.1

theorem runWindow_requested (cfg : TransferConfig) :
    ∀ (w : List String) (s : BatchRunState) (g : String),
      g ∈ (runWindow cfg s w).2.1 → g ∈ w := by
  intro w
  induction w with
  | nil => intro s g h; simp [runWindow] at h
  | cons f rest ih =>
    intro s g h
    simp only [runWindow, List.mem_append] at h
    rcases h with h | h
    · rw [processFile_requested cfg s f g h]
      exact List.mem_cons_self f rest
    · exact List.mem_cons_of_mem f (ih _ g h)

theorem runWindow_diskInv (cfg : TransferConfig) (files : List String) :
    ∀ (w : List String) (s : BatchRunState), DiskInv files s →
      DiskInv files (runWindow cfg s w).1 := by
  intro w
  induction w with
  | nil => intro s h; exact h
  | cons f rest ih =>
    intro s h
    simp only [runWindow]
    exact ih _ (processFile_diskInv cfg s f files h)

theorem runWindow_fail_iff (cfg : TransferConfig) :
    ∀ (w : List String) (s : BatchRunState), w.Nodup →
      ((runWindow cfg s w).2.2 = 0 ↔
        ∀ f ∈ w, isUploaded f (runWindow cfg s w).1.progress = true) := by
  intro w
  induction w with
  | nil => intro s _; simp [runWindow]
  | cons f rest ih =>
    intro s hnd
    have hf : f ∉ rest := (List.nodup_cons.mp hnd).1
    have hnd' : rest.Nodup := (List.nodup_cons.mp hnd).2
    simp only [runWindow]
    constructor
    · intro h0 g hg
      have hflag : (processFile cfg s f).2.2 = true := by
        by_contra hq
        rw [Bool.not_eq_true] at hq
        rw [hq] at h0
        simp at h0
      have hfc2 : (runWindow cfg (processFile cfg s f).1 rest).2.2 = 0 := by
        rw [hflag] at h0
        simpa using h0
      rcases List.mem_cons.mp hg with rfl | hg'
      · have hup : isUploaded g (processFile cfg s g).1.progress = true := by
          rw [← processFile_success_iff]
          exact hflag
        exact runWindow_mono cfg rest _ g hup
      · exact (ih _ hnd').mp hfc2 g hg'
    · intro hall
      have hfup : isUploaded f
          (runWindow cfg (processFile cfg s f).1 rest).1.progress = true :=
        hall f (List.mem_cons_self f rest)
      have hfup2 : isUploaded f (processFile cfg s f).1.progress = true := by
        rw [← runWindow_ne cfg rest (processFile cfg s f).1 f hf]
        exact hfup
      have hflag : (processFile cfg s f).2.2 = true := by
        rw [processFile_success_iff]
        exact hfup2
      have hfc2 : (runWindow cfg (processFile cfg s f).1 rest).2.2 = 0 :=
        (ih _ hnd').mpr fun g hg => hall g (List.mem_cons_of_mem f hg)
      rw [hflag, hfc2]
      simp

theorem setLastIfAll_uploadedFiles (batchKey : String) (files : List String)
    (s : BatchRunState) :
    (setLastIfAll batchKey files s).progress.uploadedFiles
      = s.progress.uploadedFiles := by
  unfold setLastIfAll
  split <;> rfl

theorem setLastIfAll_disk (batchKey : String) (files : List String)
    (s : BatchRunState) : (setLastIfAll batchKey files s).disk = s.disk := by
  unfold setLastIfAll
  split <;> rfl

theorem isUploaded_eq_of (g : String) (p q : DriveProgress)
    (h : p.uploadedFiles = q.uploadedFiles) : isUploaded g p = isUploaded g q := by
  unfold isUploaded
  rw [h]

theorem setLastIfAll_isUploaded (batchKey : String) (files : List String)
    (s : BatchRunState) (g : String) :
    isUploaded g (setLastIfAll batchKey files s).progress
      = isUploaded g s.progress :=
  isUploaded_eq_of g _ _ (setLastIfAll_uploadedFiles batchKey files s)

theorem setLastIfAll_diskInv (batchKey : String) (files fl : List String)
    (s : BatchRunState) (h : DiskInv fl s) :
    DiskInv fl (setLastIfAll batchKey files s) := by
  obtain ⟨h1, h2⟩ := h
  constructor
  · intro g hg
    rw [setLastIfAll_disk] at hg
    exact h1 g hg
  · intro g hgf hgd
    rw [setLastIfAll_disk] at hgd
    rw [setLastIfAll_isUploaded]
    exact h2 g hgf hgd

theorem all_iff_disk (files : List String) (s : BatchRunState)
    (hinv : DiskInv files s) :
    ((files.all fun f => isUploaded f s.progress) = true ↔
      ∀ f ∈ s.disk, isUploaded f s.progress = true) := by
  rw [List.all_eq_true]
  constructor
  · intro h f hf
    exact h f (hinv.1 f hf)
  · intro h f hf
    by_cases hd : f ∈ s.disk
    · exact h f hd
    · exact hinv.2 f hf hd

theorem runWindows_mono (cfg : TransferConfig) (batchKey : String)
    (files : List String) :
    ∀ (W : List (List String)) (s : BatchRunState) (g : String),
      isUploaded g s.progress = true →
      isUploaded g (runWindows cfg batchKey files s W).state.progress = true := by
  intro W
  induction W with
  | nil => intro s g h; exact h
  | cons w ws ih =>
    intro s g h
    simp only [runWindows]
    apply ih
    rw [setLastIfAll_isUploaded]
    exact runWindow_mono cfg w s g h

theorem runWindows_ne (cfg : TransferConfig) (batchKey : String)
    (files : List String) :
    ∀ (W : List (List String)) (s : BatchRunState) (g : String),
      g ∉ W.flatten →
      isUploaded g (runWindows cfg batchKey files s W).state.progress
        = isUploaded g s.progress := by
  intro W
  induction W with
  | nil => intro s g _; rfl
  | cons w ws ih =>
    intro s g h
    rw [List.flatten_cons] at h
    have hw : g ∉ w := fun hc => h (List.mem_append_left _ hc)
    have hws : g ∉ ws.flatten := fun hc => h (List.mem_append_right _ hc)
    simp only [runWindows]
    rw [ih _ g hws, setLastIfAll_isUploaded]
    exact runWindow_ne cfg w s g hw

theorem runWindows_requested (cfg : TransferConfig) (batchKey : String)
    (files : List String) :
    ∀ (W : List (List String)) (s : BatchRunState) (g : String),
      g ∈ (runWindows cfg batchKey files s W).requested → g ∈ W.flatten := by
  intro W
  induction W with
  | nil => intro s g h; simp [runWindows] at h
  | cons w ws ih =>
    intro s g h
    simp only [runWindows, List.mem_append] at h
    rw [List.flatten_cons]
    rcases h with h | h
    · exact List.mem_append_left _ (runWindow_requested cfg w s g h)
    · exact List.mem_append_right _ (ih _ g h)

theorem runWindows_diskInv (cfg : TransferConfig) (batchKey : String)
    (files fl : List String) :
    ∀ (W : List (List String)) (s : BatchRunState), DiskInv fl s →
      DiskInv fl (runWindows cfg batchKey files s W).state := by
  intro W
  induction W with
  | nil => intro s h; exact h
  | cons w ws ih =>
    intro s h
    simp only [runWindows]
    exact ih _ (setLastIfAll_diskInv batchKey files fl _
      (runWindow_diskInv cfg fl w s h))

theorem runWindows_fail_iff (cfg : TransferConfig) (batchKey : String)
    (files : List String) :
    ∀ (W : List (List String)) (s : BatchRunState), W.flatten.Nodup →
      ((runWindows cfg batchKey files s W).failCount = 0 ↔
        ∀ f ∈ W.flatten,
          isUploaded f (runWindows cfg batchKey files s W).state.progress
            = true) := by
  intro W
  induction W with
  | nil => intro s _; simp [runWindows]
  | cons w ws ih =>
    intro s hnd
    rw [List.flatten_cons] at hnd
    obtain ⟨hw, hws, hdisj⟩ := List.nodup_append.mp hnd
    simp only [runWindows, List.flatten_cons]
    constructor
    · intro h0 g hg
      have h1 : (runWindow cfg s w).2.2 = 0 := by omega
      have h2 : (runWindows cfg batchKey files
          (setLastIfAll batchKey files (runWindow cfg s w).1) ws).failCount
            = 0 := by omega
      rcases List.mem_append.mp hg with hgw | hgws
      · apply runWindows_mono
        rw [setLastIfAll_isUploaded]
        exact (runWindow_fail_iff cfg w s hw).mp h1 g hgw
      · exact (ih _ hws).mp h2 g hgws
    · intro hall
      have h2 : (runWindows cfg batchKey files
          (setLastIfAll batchKey files (runWindow cfg s w).1) ws).failCount
            = 0 :=
        (ih _ hws).mpr fun g hg => hall g (List.mem_append_right _ hg)
      have h1 : (runWindow cfg s w).2.2 = 0 := by
        rw [runWindow_fail_iff cfg w s hw]
        intro g hgw
        have hfin := hall g (List.mem_append_left _ hgw)
        have hnotin : g ∉ ws.flatten := fun hc =>
          List.disjoint_left.mp hdisj hgw hc
        rw [runWindows_ne cfg batchKey files ws _ g hnotin,
          setLastIfAll_isUploaded] at hfin
        exact hfin
      omega

theorem runWindows_checks (cfg : TransferConfig) (batchKey : String)
    (files : List String) :
    ∀ (W : List (List String)) (s : BatchRunState), DiskInv files s →
      ∀ c ∈ (runWindows cfg batchKey files s W).checks,
        (c.didSet = true ↔
          ∀ f ∈ c.disk, (lookupKey f c.uploaded).isSome = true) := by
  intro W
  induction W with
  | nil => intro s _ c hc; simp [runWindows] at hc
  | cons w ws ih =>
    intro s hinv c hc
    simp only [runWindows, List.mem_cons] at hc
    rcases hc with rfl | hc
    · have hinv1 : DiskInv files (runWindow cfg s w).1 :=
        runWindow_diskInv cfg files w s hinv
      simp only [setLastIfAll_disk, setLastIfAll_uploadedFiles]
      exact all_iff_disk files _ hinv1
    · exact ih _ (setLastIfAll_diskInv batchKey files files _
        (runWindow_diskInv cfg files w s hinv)) c hc

theorem chunksOfAux_flatten {α : Type} (c : Nat) :
    ∀ fuel (l : List α), l.length ≤ fuel → (chunksOfAux c fuel l).flatten = l := by
  intro fuel
  induction fuel with
  | zero =>
    intro l h
    have hl : l = [] := List.length_eq_zero.mp (by omega)
    subst hl
    rfl
  | succ fuel ih =>
    intro l h
    cases l with
    | nil => rfl
    | cons a l' =>
      by_cases hc : c = 0
      · simp [chunksOfAux, hc]
      · have h' : l'.length + 1 ≤ fuel + 1 := by simpa using h
        simp only [chunksOfAux, if_neg hc, List.flatten_cons]
        rw [ih _ (by simp only [List.length_drop, List.length_cons]; omega)]
        exact List.take_append_drop c (a :: l')

theorem chunksOf_flatten {α : Type} (c : Nat) (l : List α) :
    (chunksOf c l).flatten = l :=
  chunksOfAux_flatten c l.length l (le_refl _)

theorem finalSetState_disk (k : String) (r : BatchRunResult) :
    (finalSetState k r).disk = r.state.disk := by
  unfold finalSetState
  split <;> rfl

theorem finalSetState_uploadedFiles (k : String) (r : BatchRunResult) :
    (finalSetState k r).progress.uploadedFiles
      = r.state.progress.uploadedFiles := by
  unfold finalSetState
  split <;> rfl

theorem batch_final_check (cfg : TransferConfig) (inp : BatchInput)
    (p0 : DriveProgress) (hnd : inp.diskFiles.Nodup) :
    ((batchMainRun cfg inp p0).failCount = 0 ↔
      ∀ f ∈ (batchMainRun cfg inp p0).state.disk,
        isUploaded f (batchMainRun cfg inp p0).state.progress = true) := by
  have hflat : (chunksOf cfg.concurrentUploads
      (filesToUploadOf p0 inp.diskFiles)).flatten
      = filesToUploadOf p0 inp.diskFiles := chunksOf_flatten _ _
  have hndW : (chunksOf cfg.concurrentUploads
      (filesToUploadOf p0 inp.diskFiles)).flatten.Nodup := by
    rw [hflat]
    exact List.Nodup.filter _ hnd
  have hinv0 : DiskInv inp.diskFiles (⟨p0, inp.diskFiles⟩ : BatchRunState) :=
    ⟨fun g hg => hg, fun g hgf hgd => absurd hgf hgd⟩
  have hfi := runWindows_fail_iff cfg inp.batchKey inp.diskFiles
    (chunksOf cfg.concurrentUploads (filesToUploadOf p0 inp.diskFiles))
    ⟨p0, inp.diskFiles⟩ hndW
  have hinv := runWindows_diskInv cfg inp.batchKey inp.diskFiles inp.diskFiles
    (chunksOf cfg.concurrentUploads (filesToUploadOf p0 inp.diskFiles))
    ⟨p0, inp.diskFiles⟩ hinv0
  unfold batchMainRun
  constructor
  · intro h0 f hfd
    have hup : ∀ g ∈ inp.diskFiles,
        isUploaded g (runWindows cfg inp.batchKey inp.diskFiles
          ⟨p0, inp.diskFiles⟩ (chunksOf cfg.concurrentUploads
            (filesToUploadOf p0 inp.diskFiles))).state.progress = true := by
      intro g hgf
      by_cases hgu : isUploaded g p0 = true
      · exact runWindows_mono cfg inp.batchKey inp.diskFiles _ _ g hgu
      · have hmem : g ∈ filesToUploadOf p0 inp.diskFiles := by
          unfold filesToUploadOf
          rw [List.mem_filter]
          refine ⟨hgf, ?_⟩
          unfold isUploaded at hgu
          cases hl : lookupKey g p0.uploadedFiles with
          | none => simp
          | some e => rw [hl] at hgu; simp at hgu
        exact (hfi.mp h0) g (by rw [hflat]; exact hmem)
    exact hup f (hinv.1 f hfd)
  · intro hdisk
    rw [hfi]
    intro g hg
    rw [hflat] at hg
    have hgf : g ∈ inp.diskFiles := List.mem_of_mem_filter hg
    by_cases hd : g ∈ (runWindows cfg inp.batchKey inp.diskFiles
        ⟨p0, inp.diskFiles⟩ (chunksOf cfg.concurrentUploads
          (filesToUploadOf p0 inp.diskFiles))).state.disk
    · exact hdisk g hd
    · exact hinv.2 g hgf hd

/-- C4.  In `uploadBatchToDrive`, at every completion-check moment — after
each settled concurrency window, and again at the end of the batch — the
engine assigns `lastBatchUploaded := batchKey` exactly when every image file
present in the batch's `img` directory at that moment has a matching
`uploadedFiles` entry.  (The model's `disk` tracks the directory contents
under the engine's own actions: files are only removed, after their upload
is recorded, by `deleteLocalAfterUpload`.) -/
theorem batch_completion_marking (cfg : TransferConfig) (inp : BatchInput)
    (p0 : DriveProgress) (hnd : inp.diskFiles.Nodup) :
    ∀ c ∈ (uploadBatchRun cfg inp p0).checks,
      (c.didSet = true ↔
        ∀ f ∈ c.disk, (lookupKey f c.uploaded).isSome = true) := by
  intro c hc
  unfold uploadBatchRun at hc
  split_ifs at hc
  · simp at hc
  · simp at hc
  · simp at hc
  · simp at hc
  · simp only [List.mem_append, List.mem_singleton] at hc
    rcases hc with hc | hc
    · have hinv0 : DiskInv inp.diskFiles (⟨p0, inp.diskFiles⟩ : BatchRunState) :=
        ⟨fun g hg => hg, fun g hgf hgd => absurd hgf hgd⟩
      exact runWindows_checks cfg inp.batchKey inp.diskFiles _ _ hinv0 c hc
    · subst hc
      simp only [decide_eq_true_eq]
      rw [finalSetState_disk, finalSetState_uploadedFiles]
      exact batch_final_check cfg inp p0 hnd

/-- Witness for `batch_completion_marking` on a concrete two-file batch with
one file already uploaded. -/
theorem batch_completion_marking_witness :
    ((["1.png", "2.png"] : List String).Nodup) ∧
    (∀ c ∈ (uploadBatchRun
        ⟨false, 3, fun _ => .ok "d", fun _ => 7, true⟩
        ⟨"1-10", true, ["1.png", "2.png"]⟩
        ⟨none, [("1.png", ⟨"id1", "p1", 5, "t1"⟩)], []⟩).checks,
      (c.didSet = true ↔
        ∀ f ∈ c.disk, (lookupKey f c.uploaded).isSome = true)) :=
  ⟨by decide,
    batch_completion_marking ⟨false, 3, fun _ => .ok "d", fun _ => 7, true⟩
      ⟨"1-10", true, ["1.png", "2.png"]⟩
      ⟨none, [("1.png", ⟨"id1", "p1", 5, "t1"⟩)], []⟩ (by decide)⟩

theorem uploadBatchRun_mono (cfg : TransferConfig) (inp : BatchInput)
    (p0 : DriveProgress) (g : String) (h : isUploaded g p0 = true) :
    isUploaded g (uploadBatchRun cfg inp p0).state.progress = true := by
  unfold uploadBatchRun
  split_ifs
  · exact h
  · exact h
  · exact h
  · exact h
  · dsimp only
    rw [isUploaded_eq_of g _ _ (finalSetState_uploadedFiles inp.batchKey _)]
    exact runWindows_mono cfg inp.batchKey inp.diskFiles _ _ g h

theorem uploadBatchRun_not_requested (cfg : TransferConfig) (inp : BatchInput)
    (p0 : DriveProgress) (f : String) (h : isUploaded f p0 = true) :
    f ∉ (uploadBatchRun cfg inp p0).requested := by
  unfold uploadBatchRun
  split_ifs
  · simp
  · simp
  · simp
  · simp
  · dsimp only
    intro hmem
    unfold batchMainRun at hmem
    have hflat := runWindows_requested cfg inp.batchKey inp.diskFiles _ _ f hmem
    rw [chunksOf_flatten] at hflat
    unfold filesToUploadOf at hflat
    rw [List.mem_filter] at hflat
    have h2 := hflat.2
    unfold isUploaded at h
    cases hl : lookupKey f p0.uploadedFiles with
    | none => rw [hl] at h; simp at h
    | some e => rw [hl] at h2; simp at h2

theorem runInvocations_spec (f : String) :
    ∀ (invs : List (TransferConfig × BatchInput)) (p : DriveProgress),
      isUploaded f p = true →
      isUploaded f (runInvocations invs p).1 = true ∧
      f ∉ (runInvocations invs p).2 := by
  intro invs
  induction invs with
  | nil =>
    intro p h
    exact ⟨h, by simp [runInvocations]⟩
  | cons ci rest ih =>
    intro p h
    obtain ⟨cfg, inp⟩ := ci
    have h1 := uploadBatchRun_mono cfg inp p f h
    have h2 := uploadBatchRun_not_requested cfg inp p f h
    have ihr := ih (uploadBatchRun cfg inp p).state.progress h1
    refine ⟨ihr.1, ?_⟩
    simp only [runInvocations, List.mem_append]
    exact fun hc => hc.elim (fun hh => h2 hh) fun hh => ihr.2 hh

/-- C3.  Upload-once: a filename with an entry in the `uploadedFiles` map of
the loaded checkpoint is never the subject of a new upload request — no
`uploadFileToDrive` call, hence neither a session open nor a chunk PUT — in
the current `uploadBatchToDrive` invocation; its entry survives the run, so
the same holds for every subsequent invocation run against the same
checkpoint file. -/
theorem upload_once (cfg : TransferConfig) (inp : BatchInput)
    (invs : List (TransferConfig × BatchInput)) (p0 : DriveProgress)
    (f : String) (h : (lookupKey f p0.uploadedFiles).isSome = true) :
    f ∉ (uploadBatchRun cfg inp p0).requested ∧
    (lookupKey f
      (uploadBatchRun cfg inp p0).state.progress.uploadedFiles).isSome = true ∧
    f ∉ (runInvocations invs p0).2 ∧
    (lookupKey f (runInvocations invs p0).1.uploadedFiles).isSome = true := by
  have hspec := runInvocations_spec f invs p0 h
  exact ⟨uploadBatchRun_not_requested cfg inp p0 f h,
    uploadBatchRun_mono cfg inp p0 f h, hspec.2, hspec.1⟩

/-- Witness for `upload_once`: `1.png` is checkpointed as uploaded, so a run
over a batch listing `1.png` and `2.png` only requests `2.png`. -/
theorem upload_once_witness :
    (lookupKey "1.png"
      (⟨none, [("1.png", ⟨"id1", "p1", 5, "t1"⟩)], []⟩ :
        DriveProgress).uploadedFiles).isSome = true ∧
    "1.png" ∉ (uploadBatchRun ⟨false, 3, fun _ => .ok "d", fun _ => 7, true⟩
      ⟨"1-10", true, ["1.png", "2.png"]⟩
      ⟨none, [("1.png", ⟨"id1", "p1", 5, "t1"⟩)], []⟩).requested :=
  ⟨by decide,
    (upload_once ⟨false, 3, fun _ => .ok "d", fun _ => 7, true⟩
      ⟨"1-10", true, ["1.png", "2.png"]⟩ []
      ⟨none, [("1.png", ⟨"id1", "p1", 5, "t1"⟩)], []⟩ "1.png" (by decide)).1⟩

/-! ### Batch enumeration (src/src/uploadToDrive.ts `uploadAllBatchesToDrive`,
lines 676-722)

`readdirSync` entries are filtered by `/^\d+-\d+$/`, mapped to
`path.join(outputDir, name)` and sorted with JS default `Array.sort()`,
which compares strings by UTF-16 code units — for these ASCII names,
plain lexicographic character order.  The loop then awaits each batch in
that order (no cross-batch parallelism). -/

/-- Lexicographic code-unit comparison of char lists (`<=` of the JS default
sort comparator on strings). -/
def charListLe : List Char → List Char → Bool
  | [], _ => true
  | _ :: _, [] => false
  | a :: as, b :: bs => if a = b then charListLe as bs else decide (a < b)

/-- JS default string comparison. -/
def strLe (a b : String) : Bool := charListLe a.data b.data

/-- Insertion into a `strLe`-sorted list. -/
def insertStr (x : String) : List String → List String
  | [] => [x]
  | y :: ys => if strLe x y then x :: y :: ys else y :: insertStr x ys

/-- A sort by `strLe`, modelling `batchDirs.sort()`. -/
def sortStrings : List String → List String
  | [] => []
  | x :: xs => insertStr x (sortStrings xs)

/-- The `/^\d+-\d+$/` test of line 691: one or more digits, a dash, one or
more digits. -/
def isBatchKeyName (s : String) : Bool :=
  match s.data.span (fun c => c.isDigit) with
  | (ds, '-' :: rest) => !ds.isEmpty && !rest.isEmpty && rest.all fun c => c.isDigit
  | _ => false

/-- Embeds lines 688-693: the processing order of the batch directories. -/
def uploadAllOrder (outputDir : String) (entries : List String) : List String :=
  sortStrings ((entries.filter fun n => isBatchKeyName n).map
    fun n => outputDir ++ "/" ++ n)

theorem charListLe_trans :
    ∀ as bs cs, charListLe as bs = true → charListLe bs cs = true →
      charListLe as cs = true := by
  intro as
  induction as with
  | nil => intro bs cs _ _; rfl
  | cons a as ih =>
    intro bs cs h1 h2
    cases bs with
    | nil => simp [charListLe] at h1
    | cons b bs' =>
      cases cs with
      | nil => simp [charListLe] at h2
      | cons c cs' =>
        simp only [charListLe] at h1 h2 ⊢
        by_cases hab : a = b
        · rw [if_pos hab] at h1
          by_cases hbc : b = c
          · rw [if_pos hbc] at h2
            rw [if_pos (hab.trans hbc)]
            exact ih bs' cs' h1 h2
          · rw [if_neg hbc] at h2
            have hbclt : b < c := of_decide_eq_true h2
            have hac : ¬ a = c := fun hc => hbc (hab.symm.trans hc)
            rw [if_neg hac]
            exact decide_eq_true (hab ▸ hbclt)
        · rw [if_neg hab] at h1
          have hablt : a < b := of_decide_eq_true h1
          by_cases hbc : b = c
          · have hac : ¬ a = c := fun hc => hab (hc.trans hbc.symm)
            rw [if_neg hac]
            exact decide_eq_true (hbc ▸ hablt)
          · rw [if_neg hbc] at h2
            have hbclt : b < c := of_decide_eq_true h2
            have haclt : a < c := lt_trans hablt hbclt
            have hac : ¬ a = c := ne_of_lt haclt
            rw [if_neg hac]
            exact decide_eq_true haclt

theorem charListLe_total :
    ∀ as bs, charListLe as bs = true ∨ charListLe bs as = true := by
  intro as
  induction as with
  | nil => intro bs; left; rfl
  | cons a as ih =>
    intro bs
    cases bs with
    | nil => right; rfl
    | cons b bs' =>
      simp only [charListLe]
      by_cases hab : a = b
      · rw [if_pos hab, if_pos hab.symm]
        exact ih bs'
      · have hba : ¬ b = a := fun hc => hab hc.symm
        rw [if_neg hab, if_neg hba]
        rcases lt_trichotomy a b with hlt | heq | hgt
        · exact Or.inl (decide_eq_true hlt)
        · exact absurd heq hab
        · exact Or.inr (decide_eq_true hgt)

theorem strLe_trans (a b c : String) (h1 : strLe a b = true)
    (h2 : strLe b c = true) : strLe a c = true :=
  charListLe_trans a.data b.data c.data h1 h2

theorem strLe_total (a b : String) : strLe a b = true ∨ strLe b a = true :=
  charListLe_total a.data b.data

theorem insertStr_perm (x : String) :
    ∀ l, (insertStr x l).Perm (x :: l) := by
  intro l
  induction l with
  | nil => exact List.Perm.refl _
  | cons y ys ih =>
    simp only [insertStr]
    by_cases h : strLe x y = true
    · rw [if_pos h]
    · rw [if_neg h]
      exact (List.Perm.cons y ih).trans (List.Perm.swap x y ys)

theorem insertStr_mem (x g : String) (l : List String)
    (h : g ∈ insertStr x l) : g = x ∨ g ∈ l := by
  have := (insertStr_perm x l).mem_iff.mp h
  simpa using this

theorem insertStr_sorted (x : String) :
    ∀ l, List.Pairwise (fun a b => strLe a b = true) l →
      List.Pairwise (fun a b => strLe a b = true) (insertStr x l) := by
  intro l
  induction l with
  | nil => intro _; simp [insertStr]
  | cons y ys ih =>
    intro hp
    obtain ⟨hy, hys⟩ := List.pairwise_cons.mp hp
    simp only [insertStr]
    by_cases h : strLe x y = true
    · rw [if_pos h]
      refine List.pairwise_cons.mpr ⟨?_, hp⟩
      intro z hz
      rcases List.mem_cons.mp hz with rfl | hz'
      · exact h
      · exact strLe_trans x y z h (hy z hz')
    · rw [if_neg h]
      have hyx : strLe y x = true := (strLe_total x y).resolve_left h
      refine List.pairwise_cons.mpr ⟨?_, ih hys⟩
      intro z hz
      rcases insertStr_mem x z ys hz with rfl | hz'
      · exact hyx
      · exact hy z hz'

theorem sortStrings_perm : ∀ l, (sortStrings l).Perm l := by
  intro l
  induction l with
  | nil => exact List.Perm.refl _
  | cons x xs ih =>
    simp only [sortStrings]
    exact (insertStr_perm x (sortStrings xs)).trans (List.Perm.cons x ih)

theorem sortStrings_sorted :
    ∀ l, List.Pairwise (fun a b => strLe a b = true) (sortStrings l) := by
  intro l
  induction l with
  | nil => simp [sortStrings]
  | cons x xs ih =>
    simp only [sortStrings]
    exact insertStr_sorted x (sortStrings xs) ih

/-- C8 counterexample: with batch directories `1001-2000` and `10001-11000`
both present, the enumeration processes `10001-11000` first — `1001-2000` is
not processed before `10001-11000` even though its numeric start index 1001
is smaller than 10001. -/
theorem batch_enumeration_counterexample :
    uploadAllOrder "output" ["1001-2000", "10001-11000"]
      = ["output/10001-11000", "output/1001-2000"] ∧
    uploadAllOrder "output" ["1001-2000", "10001-11000"]
      ≠ ["output/1001-2000", "output/10001-11000"] ∧
    (1001 : Nat) < 10001 := by decide

/-- C8 (amended).  `uploadAllBatchesToDrive` filters the output root's
subdirectory names by the batch-key pattern, joins them with the root and
processes them sequentially (one awaited at a time, no cross-batch
parallelism) in ascending JS string-sort order — lexicographic by code
unit.  For keys of equal digit length this is ascending numeric order, but
in general it is not: `"10001-11000"` sorts before `"1001-2000"`. -/
theorem batch_enumeration_order (outputDir : String) (entries : List String) :
    List.Pairwise (fun a b => strLe a b = true)
      (uploadAllOrder outputDir entries) ∧
    (uploadAllOrder outputDir entries).Perm
      ((entries.filter fun n => isBatchKeyName n).map
        fun n => outputDir ++ "/" ++ n) ∧
    uploadAllOrder "output" ["1001-2000", "10001-11000"]
      = ["output/10001-11000", "output/1001-2000"] :=
  ⟨sortStrings_sorted _, sortStrings_perm _, by decide⟩

/-! ### Worker-count resolution and pool completion (src/unnamed/part_004
`generateImages`, src/src/index.ts line 95) -/

/-- The `numThreads` resolution at line 232 of part_004: the destructuring
default `Math.max(1, cpus().length - 1)` applies only when the field is
absent (`undefined`); an explicit `0` stays `0`. -/
def resolveNumThreads (hostCpus : Nat) (numThreads : Option Nat) : Nat :=
  match numThreads with
  | none => max 1 (hostCpus - 1)
  | some n => n

/-- The caller (src/src/index.ts line 95) passes
`config.imageGeneration.numThreads || 0`, so an absent or zero setting
reaches `generateImages` as an explicit `0`. -/
def callerNumThreads (configured : Option Nat) : Nat :=
  match configured with
  | none => 0
  | some n => n

/-- The dispatch at line 314: `numThreads <= 1` runs the per-item logic
synchronously in the main thread; only `numThreads > 1` spawns workers. -/
def usesWorkerPool (numThreads : Nat) : Bool := decide (1 < numThreads)

/-- Events arriving at the main thread's handlers: a worker `done` message
(lines 391-410) or a worker `exit` event (lines 422-435).  Both increment
`completedThreads`. -/
inductive PoolEvent where
  | doneMsg
  | exited
deriving DecidableEq, Repr

/-- Number of worker completion (`done`) messages among the events. -/
def countDone (events : List PoolEvent) : Nat :=
  (events.filter fun e => e = PoolEvent.doneMsg).length

/-- Whether the generation promise has resolved after the given events:
`completedThreads` is incremented once per event of either kind, and the
promise resolves as soon as it reaches `numThreads`. -/
def resolvesWithin (numThreads : Nat) (events : List PoolEvent) : Bool :=
  decide (numThreads ≤ events.length)

/-- C9 evaluated at the failing inputs.  The claim's partition shape does
hold (100 items over 4 workers give `[0,24],[25,49],[50,74],[75,99]`), but:
an explicit `numWorkers = 0` — which the caller passes for both absent and
zero settings — resolves to 0 and takes the synchronous no-pool path
instead of selecting `cpus - 1` workers (only an absent field gets the
`cpus - 1` default, here 7 of 8); and with 4 workers the completion counter,
incremented by both `done` messages and `exit` events, reaches 4 after only
2 workers' `done`+`exit` pairs, resolving the pool before every worker's
completion event has arrived. -/
theorem worker_pool_divergence :
    nftsPerThread 100 4 = 25 ∧
    threadRange 0 99 25 0 = some (0, 24) ∧
    threadRange 0 99 25 1 = some (25, 49) ∧
    threadRange 0 99 25 2 = some (50, 74) ∧
    threadRange 0 99 25 3 = some (75, 99) ∧
    callerNumThreads (some 0) = 0 ∧
    callerNumThreads none = 0 ∧
    resolveNumThreads 8 (some (callerNumThreads (some 0))) = 0 ∧
    usesWorkerPool 0 = false ∧
    resolveNumThreads 8 none = 7 ∧
    usesWorkerPool (resolveNumThreads 8 none) = true ∧
    countDone [.doneMsg, .exited, .doneMsg, .exited] = 2 ∧
    resolvesWithin 4 [.doneMsg, .exited, .doneMsg, .exited] = true := by
  decide

theorem processItem_skip (env : WorkerEnv) (e : Nat)
    (h : e ∉ env.nfts ∨ env.resolvedLayers e = 0) :
    processItem env e = (none, []) := by
  unfold processItem
  rcases h with h | h
  · rw [if_pos h]
  · by_cases hm : e ∈ env.nfts
    · rw [if_neg (by simpa using hm), if_pos h]
    · rw [if_pos hm]

theorem processItem_write (env : WorkerEnv) (e w : Nat)
    (h : (processItem env e).1 = some w) : w = e := by
  unfold processItem at h
  split at h
  · simp at h
  · split at h
    · simp at h
    · split at h
      · simp at h
        omega
      · simp at h

theorem processItem_events (env : WorkerEnv) (e : Nat) (ev : WorkerEvent)
    (h : ev ∈ (processItem env e).2) :
    ev = .progress e ∨ ∃ msg, ev = .error e msg := by
  unfold processItem at h
  split at h
  · simp at h
  · split at h
    · simp at h
    · split at h
      · simp at h
        exact Or.inl h
      · simp at h
        exact Or.inr ⟨_, h⟩

/-- C10 counterexample: metadata exists for editions 1 and 3 but not 2 over
the range 1..3.  Edition 2 is silently skipped — no image, no progress or
error event — yet the `done` message counts 3 items and the final checkpoint
has `completed = true` with `generated = totalToGenerate = 3`: the generated
count is *not* smaller than `totalToGenerate`, refuting the claim's
conclusion at a silent-skip instance. -/
theorem silent_skip_counterexample :
    (generateImagesSingle ⟨[1, 3], fun _ => 1, fun _ => none⟩ 1 3).2.1
      = [1, 3] ∧
    2 ∉ (generateImagesSingle ⟨[1, 3], fun _ => 1, fun _ => none⟩ 1 3).2.1 ∧
    (generateImagesSingle ⟨[1, 3], fun _ => 1, fun _ => none⟩ 1 3).2.2
      = [.progress 1, .progress 3, .done 3] ∧
    (generateImagesSingle ⟨[1, 3], fun _ => 1, fun _ => none⟩ 1 3).1.completed
      = true ∧
    ¬ ((generateImagesSingle ⟨[1, 3], fun _ => 1, fun _ => none⟩ 1 3).1.generated
        < (generateImagesSingle
            ⟨[1, 3], fun _ => 1, fun _ => none⟩ 1 3).1.totalToGenerate) := by
  decide

/-- C10 (amended).  For every item in the worker's range with no metadata
entry or no resolving layer file, `workerFunction` writes no output image
and posts neither a progress nor an error message for it; the completion
message still counts it in `processedCount` (the full range size), and the
single-thread finish writes the checkpoint with `completed = true` and
`generated` equal to `totalToGenerate` (the full range size) — so images can
be missing while the checkpoint reports the run complete with a full
generated count; the generated count does not reflect the skips. -/
theorem silent_skip (env : WorkerEnv) (startIndex actualEndIndex edition : Nat)
    (h1 : 1 ≤ startIndex) (h2 : startIndex ≤ actualEndIndex)
    (hnft : env.nfts ≠ [])
    (he1 : startIndex ≤ edition) (he2 : edition ≤ actualEndIndex)
    (hskip : edition ∉ env.nfts ∨ env.resolvedLayers edition = 0) :
    edition ∉ (generateImagesSingle env startIndex actualEndIndex).2.1 ∧
    (∀ msg, WorkerEvent.progress edition
        ∉ (generateImagesSingle env startIndex actualEndIndex).2.2 ∧
      WorkerEvent.error edition msg
        ∉ (generateImagesSingle env startIndex actualEndIndex).2.2) ∧
    WorkerEvent.done ((actualEndIndex - 1) - (startIndex - 1) + 1)
      ∈ (generateImagesSingle env startIndex actualEndIndex).2.2 ∧
    (generateImagesSingle env startIndex actualEndIndex).1.completed = true ∧
    (generateImagesSingle env startIndex actualEndIndex).1.generated
      = (generateImagesSingle env startIndex actualEndIndex).1.totalToGenerate
      := by
  unfold generateImagesSingle
  simp only [workerRun, if_neg hnft]
  refine ⟨?_, fun msg => ⟨?_, ?_⟩, ?_, rfl, rfl⟩
  · intro hw
    simp only [List.mem_filterMap] at hw
    obtain ⟨e, _, hpe⟩ := hw
    have hee := processItem_write env e edition hpe
    subst hee
    rw [processItem_skip env edition hskip] at hpe
    simp at hpe
  · intro hw
    simp only [List.mem_append, List.mem_singleton] at hw
    rcases hw with hw | hw
    · rw [List.mem_flatMap] at hw
      obtain ⟨e, _, hev⟩ := hw
      rcases processItem_events env e _ hev with hev' | ⟨m, hev'⟩
      · rw [WorkerEvent.progress.injEq] at hev'
        subst hev'
        rw [processItem_skip env edition hskip] at hev
        simp at hev
      · simp at hev'
    · simp at hw
  · intro hw
    simp only [List.mem_append, List.mem_singleton] at hw
    rcases hw with hw | hw
    · rw [List.mem_flatMap] at hw
      obtain ⟨e, _, hev⟩ := hw
      rcases processItem_events env e _ hev with hev' | ⟨m, hev'⟩
      · simp at hev'
      · rw [WorkerEvent.error.injEq] at hev'
        have hee : edition = e := hev'.1
        subst hee
        rw [processItem_skip env edition hskip] at hev
        simp at hev
    · simp at hw
  · exact List.mem_append_right _ (List.mem_singleton.mpr rfl)

/-- Witness for `silent_skip` at the concrete skipped edition 2 of a 1..3
run. -/
theorem silent_skip_witness :
    (2 ∉ (⟨[1, 3], fun _ => (1 : Nat), fun _ => none⟩ : WorkerEnv).nfts ∨
      (⟨[1, 3], fun _ => (1 : Nat), fun _ => none⟩ :
        WorkerEnv).resolvedLayers 2 = 0) ∧
    2 ∉ (generateImagesSingle
      ⟨[1, 3], fun _ => (1 : Nat), fun _ => none⟩ 1 3).2.1 :=
  ⟨by decide,
    (silent_skip ⟨[1, 3], fun _ => (1 : Nat), fun _ => none⟩ 1 3 2 (by decide)
      (by decide) (by decide) (by decide) (by decide) (by decide)).1⟩

end NftGen
